import Mathlib

/-!
Verification development for the tensorvault data engine.

Each Go component the claims touch is shallowly embedded as executable Lean
definitions, translated from the source files:
  * `Chunker` — src/pkg/chunker/chunker.go (content-defined chunking)
  * `Ingester` — src/pkg/ingester/ingester.go (streaming CDC + store puts)
  * `Exporter` — src/pkg/exporter/exporter.go (serial restore path)
  * `Meta` — ref CAS updates (UpdateRef) and the file index
  * `Cache` — the Redis existence-cache decorator (CachedStore)
  * `Disk` — the sharded on-disk store adapter (Put / ExpandHash)
  * `TreeBuilder` — src/pkg/treebuilder/builder.go
  * `Core` — canonical CBOR encoding of FileNode (src/pkg/core)

Machine integers are modelled as `Nat`/`Int` with explicit reduction
`% 2 ^ 64` where the Go code relies on wrap-around (the rolling
fingerprint). Fallible code returns `Option`/`Except`. Loops are modelled
with explicit fuel so that every definition is executable; the fuel chosen
for the top-level entry points is shown to be sufficient where a claim
depends on it.
-/

namespace Chunker

/-- src/pkg/chunker/chunker.go: `MinSize = 4 * 1024`. -/
def MinSize : Nat := 4 * 1024

/-- src/pkg/chunker/chunker.go: `AvgSize = 8 * 1024`. -/
def AvgSize : Nat := 8 * 1024

/-- src/pkg/chunker/chunker.go: `MaxSize = 64 * 1024`. -/
def MaxSize : Nat := 64 * 1024

/-- src/pkg/chunker/chunker.go: `NormLevel = 2`. -/
def NormLevel : Nat := 2

/-- `bits := int(math.Round(math.Log2(float64(AvgSize))))`; Log2 8192 = 13
exactly, so `bits = 13`. -/
def bits : Nat := 13

/-- `maskS = uint64(1<<(bits+NormLevel)) - 1` = 2^15 - 1. -/
def maskS : Nat := 2 ^ (bits + NormLevel) - 1

/-- `maskL = uint64(1<<(bits-NormLevel)) - 1` = 2^11 - 1. -/
def maskL : Nat := 2 ^ (bits - NormLevel) - 1

/-- The scan closure of `Cut`:
```
scan := func(limit int, mask uint64) bool {
    for ; idx < limit; idx++ {
        fp = (fp << 1) + gearTable[data[idx]]
        if (fp & mask) == 0 { cutPoints = append(cutPoints, idx+1); offset = idx + 1; return true }
    }
    return false
}
```
`gear` abstracts the 256-entry `gearTable` (its constants live in a source
file that is not under src/). `fuel` is `limit - idx`, the number of
remaining loop iterations. Result: `(some c, fp)` when a cut at `c = idx+1`
was found, `(none, fp)` when the loop ran to `limit`; the second component
is the rolling fingerprint afterwards (the closure keeps `fp` across the
two scan calls). The fingerprint is a `uint64`, hence the `% 2 ^ 64`. -/
def scan (gear : Nat → Nat) (data : List Nat) (mask : Nat) :
    Nat → Nat → Nat → Option Nat × Nat
  | 0, fp, _ => (none, fp)
  | fuel + 1, fp, idx =>
    let fp' := ((fp <<< 1) + gear (data.getD idx 0)) % 2 ^ 64
    if fp' &&& mask == 0 then (some (idx + 1), fp')
    else scan gear data mask fuel fp' (idx + 1)

/-- One iteration of `Cut`s outer `for offset < n` loop
(src/pkg/chunker/chunker.go lines 39-81): the next emitted cut point, or
`none` when the loop stops (`if n-offset <= MinSize { return cutPoints }`).
Step A scans `[offset+MinSize, normLimit)` with the strict mask, step B
continues in `[normLimit, maxLimit)` with the loose mask and the carried
fingerprint, and otherwise a cut is forced at
`maxLimit = min(offset+MaxSize, n)`. -/
def cutStep (gear : Nat → Nat) (data : List Nat) (offset : Nat) : Option Nat :=
  if data.length - offset ≤ MinSize then none
  else
    let idx := offset + MinSize
    let normLimit := min (offset + AvgSize) data.length
    let maxLimit := min (offset + MaxSize) data.length
    match scan gear data maskS (normLimit - idx) 0 idx with
    | (some c, _) => some c
    | (none, fp1) =>
      match scan gear data maskL (maxLimit - normLimit) fp1 normLimit with
      | (some c, _) => some c
      | (none, _) => some maxLimit

/-- The outer loop of `Cut`: iterate `cutStep`, restarting at each emitted
cut, collecting the cut points in order. `fuel` bounds the number of
iterations; each iteration advances `offset`, so the fuel passed by `Cut`
is always sufficient (`cutAux_tail` is proved under that bound). -/
def cutAux (gear : Nat → Nat) (data : List Nat) : Nat → Nat → List Nat
  | 0, _ => []
  | fuel + 1, offset =>
    match cutStep gear data offset with
    | none => []
    | some c => c :: cutAux gear data fuel c

/-- `Cut` returns the end offsets of all complete chunks (the unprocessed
tail after the last cut is not covered). -/
def Cut (gear : Nat → Nat) (data : List Nat) : List Nat :=
  cutAux gear data (data.length + 1) 0

/-- Sizes of the chunks delimited by the cut list, starting from `prev`:
`chunkSizes prev [c1, c2, ...] = [c1 - prev, c2 - c1, ...]`. -/
def chunkSizes : Nat → List Nat → List Nat
  | _, [] => []
  | prev, c :: cs => (c - prev) :: chunkSizes c cs

/-- End offset of the last emitted cut (`d` when no cut was emitted). -/
def lastEnd (d : Nat) (cuts : List Nat) : Nat := cuts.getLastD d

/-- Modelled from the spec: the 256-entry random Gear table
(`gearTable`, referenced by chunker.go but defined in a source file that is
not under src/; the spec says only that it is a table of fixed random
constants taken from fastcdc-go). We model it as a fixed table of
pseudo-random 64-bit values produced by the splitmix64 generator. All
general theorems below are quantified over an arbitrary table and therefore
also cover the real constants. -/
def splitmix64 (x : Nat) : Nat :=
  let z := (x + 0x9E3779B97F4A7C15) % 2 ^ 64
  let z := ((z ^^^ (z >>> 30)) * 0xBF58476D1CE4E5B9) % 2 ^ 64
  let z := ((z ^^^ (z >>> 27)) * 0x94D049BB133111EB) % 2 ^ 64
  (z ^^^ (z >>> 31)) % 2 ^ 64

/-- Modelled from the spec (see `splitmix64`): stand-in for the fixed
`gearTable` constants. -/
def gearTable (b : Nat) : Nat := splitmix64 (b % 256)

end Chunker

/-- Association-list lookup, the model of map/filesystem key lookups. -/
def lookupA {α β : Type} [DecidableEq α] : List (α × β) → α → Option β
  | [], _ => none
  | (k, v) :: rest, h => if h = k then some v else lookupA rest h

namespace Pipeline

/-- A content-addressable store: hash key `κ` mapped to the stored bytes.
`Put` is idempotent (`if has(obj.id) return success without writing`, as in
the disk adapter and the S3 adapter); it never overwrites. -/
def putS {κ : Type} [DecidableEq κ] (σ : List (κ × List Nat)) (h : κ) (d : List Nat) :
    List (κ × List Nat) :=
  match lookupA σ h with
  | some _ => σ
  | none => (h, d) :: σ

/-- core.ChunkLink: `{hash, size}`; the size is a byte count. -/
structure ChunkLink (κ : Type) where
  hash : κ
  size : Nat
deriving DecidableEq

/-- core.FileNode: total size plus the ordered chunk links (the `t` type
field and the cached hash/bytes are handled where needed). -/
structure FileNode (κ : Type) where
  totalSize : Nat
  chunks : List (ChunkLink κ)
deriving DecidableEq

/-- `processingData[start:end]` slices for the emitted cut points, as in
`generateJobs`: `start := 0; for _, end := range cutPoints { chunk :=
processingData[start:end]; ...; start = end }`. -/
def slicesFrom (data : List Nat) : Nat → List Nat → List (List Nat)
  | _, [] => []
  | start, c :: cs => ((data.drop start).take (c - start)) :: slicesFrom data c cs

/-- src/pkg/ingester/ingester.go `generateJobs`: the reader is modelled as
the list of successive `Read` results (the Go code reads into a 1 MiB
buffer, so each element has length at most `ReadBufferSize`; nothing below
depends on that bound). Each round processes `remainder ++ new_bytes`,
emits one job per complete cut, and carries the unconsumed tail. At EOF a
non-empty remainder becomes the final job. Rounds with `n = 0` are
skipped, as in the source. The emitted jobs are returned in index order
(the `chunkIndex` order). -/
def generateJobs (gear : Nat → Nat) : List (List Nat) → List Nat → List (List Nat)
  | [], remainder => if remainder.length > 0 then [remainder] else []
  | r :: rs, remainder =>
    if r.length > 0 then
      let pd := remainder ++ r
      let cuts := Chunker.Cut gear pd
      slicesFrom pd 0 cuts ++ generateJobs gear rs (pd.drop (Chunker.lastEnd 0 cuts))
    else generateJobs gear rs remainder

/-- src/pkg/ingester/ingester.go `IngestFile`, as the sequential function it
computes: the workers hash each job (`H` models `CalculateBlobHash`,
i.e. SHA-256 of the bytes) and `Put` it into the store; the collector
reassembles the links in index order (out-of-order worker completion is
reordered through the pending map, so the result is the generation order)
and sums the sizes; finally the FileNode itself is `Put` under its own
hash (`nodePut` models `CalculateHash`: the canonical encoding and its
SHA-256). -/
def IngestFile {κ : Type} [DecidableEq κ] (gear : Nat → Nat) (H : List Nat → κ)
    (nodePut : FileNode κ → κ × List Nat) (reads : List (List Nat))
    (σ : List (κ × List Nat)) : FileNode κ × List (κ × List Nat) :=
  let jobs := generateJobs gear reads []
  let σ1 := jobs.foldl (fun acc d => putS acc (H d) d) σ
  let links := jobs.map (fun d => ChunkLink.mk (H d) d.length)
  let fn : FileNode κ := ⟨(jobs.map List.length).sum, links⟩
  let np := nodePut fn
  (fn, putS σ1 np.1 np.2)

/-- src/pkg/exporter/exporter.go `exportFileSerial`: iterate the chunks in
order, `Get` each chunk by its hash and append its bytes; a missing chunk
(`ErrNotFound`) aborts the export. -/
def exportFileSerial {κ : Type} [DecidableEq κ] (σ : List (κ × List Nat)) :
    List (ChunkLink κ) → Option (List Nat)
  | [] => some []
  | l :: ls =>
    match lookupA σ l.hash with
    | none => none
    | some d => (exportFileSerial σ ls).map (d ++ ·)

end Pipeline

namespace Meta

/-- The `refs` table row: `name` (primary key, unique), `commit_hash`,
`version` (the `updated_at` column plays no role in the claims). -/
structure Ref where
  name : String
  commitHash : String
  version : Int
deriving DecidableEq

/-- `ErrConcurrentUpdate` (the StaleRef error kind); unique-constraint
violations on create are mapped to it too. -/
inductive RefErr where
  | concurrentUpdate
deriving DecidableEq

/-- `GetRef`: `WHERE name = ?`, first row or not-found. -/
def GetRef (db : List Ref) (name : String) : Option Ref :=
  db.find? (fun r => r.name == name)

/-- src/unnamed/part_009 `UpdateRef`. For `oldVersion == 0` an INSERT at
version 1 is attempted and a unique violation on `name` becomes
`concurrentUpdate`. Otherwise the conditional
`UPDATE refs SET commit_hash=?, version=version+1 WHERE name=? AND version=?`
runs; zero affected rows also yield `concurrentUpdate`. An error means the
transaction made no change to the table. -/
def UpdateRef (db : List Ref) (name : String) (newHash : String) (oldVersion : Int) :
    Except RefErr (List Ref) :=
  if oldVersion == 0 then
    if db.any (fun r => r.name == name) then .error .concurrentUpdate
    else .ok ({ name := name, commitHash := newHash, version := 1 } :: db)
  else
    let affected := db.countP (fun r => r.name == name && r.version == oldVersion)
    if affected == 0 then .error .concurrentUpdate
    else .ok (db.map (fun r =>
      if r.name == name && r.version == oldVersion then
        { r with commitHash := newHash, version := r.version + 1 }
      else r))

/-- Modelled from the spec: `SaveFileIndex` (its implementation file is not
under src/; the spec specifies an idempotent first-writer-wins insert into
`file_indices(linear_hash PK, merkle_root, size_bytes)`, and the
repository test part_011 confirms the existing row wins). Keys are linear
hashes `lh`; values are `(merkle_root, size_bytes)`. -/
def SaveFileIndex {lh κ : Type} [DecidableEq lh] (indices : List (lh × κ × Nat))
    (h : lh) (root : κ) (size : Nat) : List (lh × κ × Nat) :=
  match lookupA indices h with
  | some _ => indices
  | none => (h, root, size) :: indices

end Meta

namespace Service

/-- The two ways `Upload` can answer: `SendAndClose` with the FileNode hash
and total size, or the `codes.DataLoss` integrity failure. (Transport and
ingestion errors occur before the behaviour the claim is about.) -/
inductive UploadResult (κ : Type) where
  | ok (hash : κ) (totalSize : Nat)
  | integrityFailure
deriving DecidableEq

/-- src/pkg/service/data.go `Upload`, after a well-formed metadata frame:
the gRPC stream carries `reads`; the tee reader feeds every byte the
Ingester consumes into the SHA-256 hasher (`sha` models the hasher), so at
EOF the hasher has digested exactly the concatenation of the reads. The
digest is compared to the client-declared linear hash; on mismatch the
upload answers `DataLoss` and no `file_indices` row is written. On match
`SaveFileIndex(serverLinearHash, fileNode.ID(), fileNode.TotalSize)` runs;
`indexWriteFails` models that non-fatal write failing, in which case the
index is unchanged but the response still succeeds. Returns the outcome,
the store and the `file_indices` table. -/
def Upload {κ lh : Type} [DecidableEq κ] [DecidableEq lh]
    (gear : Nat → Nat) (H : List Nat → κ) (nodePut : Pipeline.FileNode κ → κ × List Nat)
    (sha : List Nat → lh) (clientLinearHash : lh) (reads : List (List Nat))
    (σ : List (κ × List Nat)) (indices : List (lh × κ × Nat)) (indexWriteFails : Bool) :
    UploadResult κ × List (κ × List Nat) × List (lh × κ × Nat) :=
  let res := Pipeline.IngestFile gear H nodePut reads σ
  let fileNode := res.1
  let σ1 := res.2
  let serverLinearHash := sha reads.flatten
  if serverLinearHash ≠ clientLinearHash then
    (.integrityFailure, σ1, indices)
  else
    let indices1 :=
      if indexWriteFails then indices
      else Meta.SaveFileIndex indices serverLinearHash (nodePut fileNode).1 fileNode.totalSize
    (.ok (nodePut fileNode).1 fileNode.totalSize, σ1, indices1)

end Service

namespace Cache

/-- The CachedStore decorator state: the shared existence cache (the set of
Redis keys, `tv:obj:<hash>` modelled as the hash itself) and the wrapped
backend store. -/
structure CachedState (κ : Type) where
  cache : List κ
  backend : List (κ × List Nat)
deriving DecidableEq

/-- src/unnamed/part_012 `CachedStore.Has`: a cache hit returns true
without touching the backend; on a miss the backend is queried and a
positive result is backfilled (the asynchronous backfill is modelled as
having completed; the claims do not depend on whether it lands). -/
def Has {κ : Type} [DecidableEq κ] (st : CachedState κ) (h : κ) : Bool × CachedState κ :=
  if h ∈ st.cache then (true, st)
  else if (lookupA st.backend h).isSome then
    (true, { st with cache := h :: st.cache })
  else (false, st)

/-- src/unnamed/part_012 `CachedStore.Put`: pre-check through `Has`; when
it reports the object as existing, return success without writing to the
backend; otherwise write the backend, then the cache. -/
def Put {κ : Type} [DecidableEq κ] (st : CachedState κ) (h : κ) (d : List Nat) :
    CachedState κ :=
  let res := Has st h
  if res.1 then res.2
  else
    let st2 := res.2
    { cache := h :: st2.cache, backend := Pipeline.putS st2.backend h d }

/-- src/unnamed/part_012 `CachedStore.Get`: pure pass-through to the
backend (payloads are never cached). -/
def Get {κ : Type} [DecidableEq κ] (st : CachedState κ) (h : κ) : Option (List Nat) :=
  lookupA st.backend h

end Cache

namespace Disk

/-- src/unnamed/part_013 `layout`: hash `aabbcc...` is stored at
`<root>/aa/bbcc...`; hashes shorter than two characters live directly
under the root. A path is modelled as its list of components below the
root. -/
def layout (hash : List Char) : List (List Char) :=
  if hash.length < 2 then [hash] else [hash.take 2, hash.drop 2]

/-- src/unnamed/part_013 `Put` (identical in src/pkg/storage/store.go):
`os.Stat(targetPath)` hit returns success immediately without writing;
otherwise the bytes are written to a temp file and atomically renamed into
place. The filesystem is modelled as an association list from paths to
contents (only the happy path writes; I/O errors are out of scope of the
claims). -/
def Put (fs : List (List (List Char) × List Nat)) (id : List Char) (data : List Nat) :
    List (List (List Char) × List Nat) :=
  match lookupA fs (layout id) with
  | some _ => fs
  | none => (layout id, data) :: fs

/-- The error kinds of `ExpandHash`: the too-short guard error,
`storage.ErrNotFound` and `storage.ErrAmbiguousHash`. -/
inductive ExpandErr where
  | tooShort
  | notFound
  | ambiguous
deriving DecidableEq

/-- src/unnamed/part_013 `ExpandHash` over the set of stored object hashes
(each stored object is a file named by its hash inside its shard
directory). A missing shard directory — no stored hash with that shard —
is `ErrNotFound`; otherwise the shard entries are filtered by
`strings.HasPrefix(name, short[2:])` and the full hash is rebuilt as
`short[:2] + name`. -/
def ExpandHash (stored : List (List Char)) (short : List Char) : Except ExpandErr (List Char) :=
  if short.length < 4 then .error .tooShort
  else
    let shard := short.take 2
    if stored.all (fun h => ¬ h.take 2 = shard) then .error .notFound
    else
      let sufPre := short.drop 2
      let ms := stored.filter (fun h => h.take 2 = shard ∧ sufPre <+: h.drop 2)
      if ms.length = 0 then .error .notFound
      else if ms.length > 1 then .error .ambiguous
      else .ok (ms.headD [])

end Disk

namespace TreeBuilder

/-- index.Entry as consumed by the builder: the FileNode hash and size. -/
structure IEntry (κ : Type) where
  hash : κ
  size : Int
deriving DecidableEq

/-- The in-memory trie node of src/pkg/treebuilder/builder.go. A directory
node's `children` map is modelled as an association list kept canonically
sorted by key: the Go `map[string]*node` is only observed through lookup,
insert and sorted-key iteration (`sort.Strings(childNames)`), so the
sorted list is an observationally faithful model and the
`sort.Strings` step in `writeNode` is the identity on it. A file node's
`children` map is nil in the source; its only model is the `file`
constructor. The write-only `name` field is dropped (it always equals the
map key). -/
inductive TNode (κ : Type) where
  | file (entry : IEntry κ)
  | dir (children : List (List Char × TNode κ))

/-- Byte-wise (code point) strict order on names, the order used by
`sort.Strings`. -/
def keyLt : List Char → List Char → Bool
  | [], [] => false
  | [], _ :: _ => true
  | _ :: _, [] => false
  | a :: as, b :: bs =>
    if a.toNat < b.toNat then true
    else if b.toNat < a.toNat then false
    else keyLt as bs

/-- Insert (or replace) a key in the canonically sorted children list. -/
def insertChild {κ : Type} (k : List Char) (v : TNode κ) :
    List (List Char × TNode κ) → List (List Char × TNode κ)
  | [] => [(k, v)]
  | (k2, v2) :: rest =>
    if keyLt k k2 then (k, v) :: (k2, v2) :: rest
    else if k = k2 then (k, v) :: rest
    else (k2, v2) :: insertChild k v rest

/-- `strings.Split(s, "/")` on a path modelled as a character list. -/
def splitSlash : List Char → List (List Char)
  | [] => [[]]
  | c :: rest =>
    let r := splitSlash rest
    if c = '/' then [] :: r
    else (c :: r.headD []) :: r.tail

/-- The directory components `mkdirP` walks for a path: `path.Split` keeps
everything before the last slash; after `strings.TrimSuffix(dir, "/")` an
empty or `"."` string means the root, and empty components (double
slashes) are skipped by the `mkdirP` loop. -/
def dirParts (comps : List (List Char)) : List (List Char) :=
  let dl := comps.dropLast
  if dl = [] ∨ dl = [[]] ∨ dl = [['.']] then []
  else dl.filter (fun p => ¬ p = [])

/-- The trie location a path denotes: the walked directory components
followed by the file name (the part after the last slash). -/
def loc (fullPath : List Char) : List (List Char) :=
  dirParts (splitSlash fullPath) ++ [(splitSlash fullPath).getLastD []]

/-- Walk/create the directory chain and hang the leaf, fused from `mkdirP`
and `addFile`. Descending into (or inserting into) a file node returns
`none`: the Go code assigns into that node's nil children map and panics
there. -/
def insertLoc {κ : Type} : List (List Char) → IEntry κ → TNode κ → Option (TNode κ)
  | [f], e, .dir cs => some (.dir (insertChild f (.file e) cs))
  | _ :: _, _, .file _ => none
  | p :: ps, e, .dir cs =>
    (insertLoc ps e ((lookupA cs p).getD (.dir []))).map
      (fun c2 => .dir (insertChild p c2 cs))
  | [], _, _ => none

/-- Decomposition of one `insertLoc` level, used by the commutation
proofs: what is placed under the head key — the leaf itself when the
location ends here, or the recursive insertion into the child.
`insertLoc_head` shows `insertLoc (p :: ps) e (.dir cs)` is `subIns` on the
child followed by re-inserting under `p`. -/
def subIns {κ : Type} (ps : List (List Char)) (e : IEntry κ) (child : TNode κ) :
    Option (TNode κ) :=
  match ps with
  | [] => some (.file e)
  | q :: qs => insertLoc (q :: qs) e child

/-- `addFile` of src/pkg/treebuilder/builder.go. -/
def addFile {κ : Type} (fullPath : List Char) (e : IEntry κ) (t : TNode κ) :
    Option (TNode κ) :=
  insertLoc (loc fullPath) e t

/-- Step 1 of `Build`: fold `addFile` over the snapshot in the given
iteration order, starting from `newDirNode("")`. -/
def inflate {κ : Type} (l : List (List Char × IEntry κ)) : Option (TNode κ) :=
  l.foldl (fun acc pe => acc.bind (addFile pe.1 pe.2)) (some (.dir []))

/-- A persisted `core.TreeEntry`: name, kind, child hash, size (0 for
directories). -/
structure TreeEntryM (κ : Type) where
  name : List Char
  isDir : Bool
  hash : κ
  size : Int
deriving DecidableEq

/-- `childNode.isDir`. -/
def isDirN {κ : Type} : TNode κ → Bool
  | .dir _ => true
  | .file _ => false

/-- The size recorded for a file entry (`childNode.entry.Size`). -/
def entrySize {κ : Type} : TNode κ → Int
  | .file e => e.size
  | .dir _ => 0

/-- `writeNode`: post-order persistence. `HT` models
`core.NewTree` + `CalculateHash` (the hash of the canonically encoded
entry list); the returned list collects every persisted Tree object
(the `store.Put(treeObj)` calls, in order) with the root hash. Children
are iterated in sorted name order (see `TNode`). `fuel` bounds the
recursion depth; any fuel above the trie depth gives the same result. -/
def writeNode {κ : Type} (HT : List (TreeEntryM κ) → κ) :
    Nat → TNode κ → Option (κ × List (List (TreeEntryM κ)))
  | 0, _ => none
  | _ + 1, .file e => some (e.hash, [])
  | fuel + 1, .dir cs =>
    let step := fun (acc : Option (List (TreeEntryM κ) × List (List (TreeEntryM κ))))
        (nc : List Char × TNode κ) =>
      match acc with
      | none => none
      | some (entries, puts) =>
        match writeNode HT fuel nc.2 with
        | none => none
        | some (h, ps) =>
          some (entries ++ [⟨nc.1, isDirN nc.2, h, entrySize nc.2⟩], puts ++ ps)
    match cs.foldl step (some ([], [])) with
    | none => none
    | some (entries, puts) => some (HT entries, puts ++ [entries])

/-- `Build`: inflate the trie from the snapshot iteration order, then
persist it bottom-up. Returns the root hash and the persisted trees. -/
def Build {κ : Type} (HT : List (TreeEntryM κ) → κ) (l : List (List Char × IEntry κ))
    (fuel : Nat) : Option (κ × List (List (TreeEntryM κ))) :=
  (inflate l).bind (writeNode HT fuel)

end TreeBuilder

namespace Core

/-- CBOR head byte(s) for a major type and unsigned argument, shortest
form as the canonical profile requires. -/
def cborHead (major : Nat) (n : Nat) : List Nat :=
  if n < 24 then [major * 32 + n]
  else if n < 2 ^ 8 then [major * 32 + 24, n]
  else if n < 2 ^ 16 then [major * 32 + 25, n / 2 ^ 8, n % 2 ^ 8]
  else if n < 2 ^ 32 then
    [major * 32 + 26, n / 2 ^ 24 % 256, n / 2 ^ 16 % 256, n / 2 ^ 8 % 256, n % 256]
  else
    [major * 32 + 27, n / 2 ^ 56 % 256, n / 2 ^ 48 % 256, n / 2 ^ 40 % 256,
      n / 2 ^ 32 % 256, n / 2 ^ 24 % 256, n / 2 ^ 16 % 256, n / 2 ^ 8 % 256, n % 256]

/-- CBOR integer: major 0 for non-negative, major 1 with argument
`-1 - i` for negative (Go int64 fields). -/
def cborInt (i : Int) : List Nat :=
  if 0 ≤ i then cborHead 0 i.toNat else cborHead 1 (-(i + 1)).toNat

/-- CBOR text string (the struct keys and type tags are ASCII). -/
def cborText (s : List Char) : List Nat :=
  cborHead 3 s.length ++ s.map Char.toNat

/-- CBOR byte string. -/
def cborBytes (b : List Nat) : List Nat := cborHead 2 b.length ++ b

/-- Hex digit value, as `encoding/hex` accepts (both cases). -/
def hexVal (c : Char) : Option Nat :=
  if '0' ≤ c ∧ c ≤ '9' then some (c.toNat - '0'.toNat)
  else if 'a' ≤ c ∧ c ≤ 'f' then some (c.toNat - 'a'.toNat + 10)
  else if 'A' ≤ c ∧ c ≤ 'F' then some (c.toNat - 'A'.toNat + 10)
  else none

/-- `hex.DecodeString`: fails on odd length or a non-hex character. -/
def hexDecode : List Char → Option (List Nat)
  | [] => some []
  | [_] => none
  | c1 :: c2 :: rest => do
    let h ← hexVal c1
    let l ← hexVal c2
    let r ← hexDecode rest
    pure ((h * 16 + l) :: r)

/-- `Link.MarshalCBOR` (src/pkg/core object.go): decode the hex hash
(errors propagate), prepend the 0x00 identity prefix, wrap in tag 42. -/
def encLink (hash : List Char) : Option (List Nat) :=
  (hexDecode hash).map (fun hb => cborHead 6 42 ++ cborBytes (0 :: hb))

/-- core.ChunkLink for the encoder: the hex hash string and the size. -/
structure ChunkLinkC where
  hash : List Char
  size : Int
deriving DecidableEq

/-- Canonical encoding of a ChunkLink: map `{"h": Link, "s": int}`; the
canonical key order puts `h` before `s`. -/
def encChunkLink (cl : ChunkLinkC) : Option (List Nat) :=
  (encLink cl.hash).map
    (fun lb => cborHead 5 2 ++ cborText ['h'] ++ lb ++ cborText ['s'] ++ cborInt cl.size)

/-- Concatenated encodings of the chunk array elements. -/
def encChunkList : List ChunkLinkC → Option (List Nat)
  | [] => some []
  | c :: cs => do
    let b ← encChunkLink c
    let r ← encChunkList cs
    pure (b ++ r)

/-- core.FileNode for the encoder: type tag, declared total size, chunk
links. -/
structure FileNodeC where
  typeVal : List Char
  totalSize : Int
  chunks : List ChunkLinkC
deriving DecidableEq

/-- Canonical CBOR of a FileNode, per `encOptions` (SortCanonical,
definite lengths, shortest ints): map of the three fields with canonical
RFC 7049 key order (shorter keys first, then byte-wise):
`"t"`, then `"cs"`, then `"ts"`. -/
def encFileNode (fn : FileNodeC) : Option (List Nat) :=
  (encChunkList fn.chunks).map (fun cb =>
    cborHead 5 3 ++ cborText ['t'] ++ cborText fn.typeVal
      ++ cborText ['c', 's'] ++ cborHead 4 fn.chunks.length ++ cb
      ++ cborText ['t', 's'] ++ cborInt fn.totalSize)

/-- src/pkg/core/filenode.go `NewFileNode`: build the node with
`TypeVal = "filenode"` and the given `totalSize` and `chunks` — no
validation relates `totalSize` to the chunk sizes — then `CalculateHash`
computes the canonical bytes and their SHA-256 (`H` models the SHA-256
step); the only error source is encoding failure. Returns the node, its
hash and its cached canonical bytes. -/
def NewFileNode {κ : Type} (H : List Nat → κ) (totalSize : Int)
    (chunks : List ChunkLinkC) : Option (FileNodeC × κ × List Nat) :=
  let node : FileNodeC := ⟨['f', 'i', 'l', 'e', 'n', 'o', 'd', 'e'], totalSize, chunks⟩
  (encFileNode node).map (fun b => (node, H b, b))

end Core

/-! ## Chunker lemmas -/

namespace Chunker

theorem MinSize_eq : MinSize = 4096 := rfl

theorem min_le_avg : MinSize ≤ AvgSize := by decide

theorem min_lt_avg : MinSize < AvgSize := by decide

theorem avg_le_max : AvgSize ≤ MaxSize := by decide

theorem min_lt_max : MinSize < MaxSize := by decide

theorem scan_zero (gear : Nat → Nat) (data : List Nat) (mask fp idx : Nat) :
    scan gear data mask 0 fp idx = (none, fp) := rfl

theorem scan_one (gear : Nat → Nat) (data : List Nat) (mask fp idx : Nat) :
    scan gear data mask 1 fp idx =
      if ((fp <<< 1) + gear (data.getD idx 0)) % 2 ^ 64 &&& mask == 0
      then (some (idx + 1), ((fp <<< 1) + gear (data.getD idx 0)) % 2 ^ 64)
      else (none, ((fp <<< 1) + gear (data.getD idx 0)) % 2 ^ 64) := by
  show scan gear data mask (0 + 1) fp idx = _
  rw [scan]
  split <;> rfl

/-- A successful scan emits a cut strictly past the start index and within
the scanned window. -/
theorem scan_some_bounds {gear : Nat → Nat} {data : List Nat} {mask : Nat} :
    ∀ {fuel fp idx c fp2}, scan gear data mask fuel fp idx = (some c, fp2) →
      idx < c ∧ c ≤ idx + fuel := by
  intro fuel
  induction fuel with
  | zero => intro fp idx c fp2 h; simp [scan] at h
  | succ fuel ih =>
    intro fp idx c fp2 h
    rw [scan] at h
    split at h
    · have hc := congrArg Prod.fst h
      simp only [Option.some.injEq] at hc
      omega
    · have := ih h
      omega

/-- When more than `MinSize` bytes remain, one loop iteration emits a cut
`c` with `offset + MinSize < c ≤ min (offset + MaxSize) n`. -/
theorem cutStep_some {gear : Nat → Nat} {data : List Nat} {offset : Nat}
    (h : MinSize < data.length - offset) :
    ∃ c, cutStep gear data offset = some c ∧
      offset + MinSize < c ∧ c ≤ min (offset + MaxSize) data.length := by
  have hmn : offset + MinSize ≤ min (offset + AvgSize) data.length := by
    have := min_le_avg; omega
  have hnm : min (offset + AvgSize) data.length ≤ min (offset + MaxSize) data.length := by
    have := avg_le_max; omega
  unfold cutStep
  rw [if_neg (by omega)]
  dsimp only
  rcases hA : scan gear data maskS (min (offset + AvgSize) data.length - (offset + MinSize))
      0 (offset + MinSize) with ⟨oA, fp1⟩
  cases oA with
  | some c =>
    have hb := scan_some_bounds hA
    exact ⟨c, rfl, by omega, by omega⟩
  | none =>
    dsimp only
    rcases hB : scan gear data maskL
        (min (offset + MaxSize) data.length - min (offset + AvgSize) data.length) fp1
        (min (offset + AvgSize) data.length) with ⟨oB, fp2⟩
    cases oB with
    | some c =>
      have hb := scan_some_bounds hB
      exact ⟨c, rfl, by omega, by omega⟩
    | none =>
      refine ⟨min (offset + MaxSize) data.length, rfl, ?_, le_refl _⟩
      have := min_lt_max; omega

/-- The loop stops exactly when at most `MinSize` bytes remain. -/
theorem cutStep_none_iff {gear : Nat → Nat} {data : List Nat} {offset : Nat} :
    cutStep gear data offset = none ↔ data.length - offset ≤ MinSize := by
  constructor
  · intro h
    by_contra hlt
    obtain ⟨c, hc, -, -⟩ := @cutStep_some gear data offset (by omega)
    rw [h] at hc
    exact Option.noConfusion hc
  · intro h
    unfold cutStep
    rw [if_pos h]

/-- The forced cut: when both scans find no fingerprint match, the emitted
cut is exactly `min (offset + MaxSize) n` — also when the input ends before
`offset + MaxSize`. -/
theorem cutStep_forced {gear : Nat → Nat} {data : List Nat} {offset : Nat}
    (h : MinSize < data.length - offset)
    (hA : (scan gear data maskS (min (offset + AvgSize) data.length - (offset + MinSize))
      0 (offset + MinSize)).1 = none)
    (hB : (scan gear data maskL
      (min (offset + MaxSize) data.length - min (offset + AvgSize) data.length)
      (scan gear data maskS (min (offset + AvgSize) data.length - (offset + MinSize))
        0 (offset + MinSize)).2
      (min (offset + AvgSize) data.length)).1 = none) :
    cutStep gear data offset = some (min (offset + MaxSize) data.length) := by
  unfold cutStep
  rw [if_neg (by omega)]
  dsimp only
  rcases hAe : scan gear data maskS (min (offset + AvgSize) data.length - (offset + MinSize))
      0 (offset + MinSize) with ⟨oA, fp1⟩
  rw [hAe] at hA hB
  cases oA with
  | some c => exact absurd hA (by simp)
  | none =>
    dsimp only
    rcases hBe : scan gear data maskL
        (min (offset + MaxSize) data.length - min (offset + AvgSize) data.length) fp1
        (min (offset + AvgSize) data.length) with ⟨oB, fp2⟩
    rw [hBe] at hB
    cases oB with
    | some c => exact absurd hB (by simp)
    | none => rfl

theorem cutAux_cons {gear : Nat → Nat} {data : List Nat} {fuel offset c : Nat}
    (h : cutStep gear data offset = some c) (hf : fuel ≠ 0) :
    cutAux gear data fuel offset = c :: cutAux gear data (fuel - 1) c := by
  cases fuel with
  | zero => exact absurd rfl hf
  | succ fuel => rw [cutAux, h]; rfl

theorem cutAux_nil {gear : Nat → Nat} {data : List Nat} {fuel offset : Nat}
    (h : cutStep gear data offset = none) :
    cutAux gear data fuel offset = [] := by
  cases fuel with
  | zero => rfl
  | succ fuel => rw [cutAux, h]

/-- Every chunk delimited by the emitted cuts has size strictly above
`MinSize` and at most `MaxSize`. -/
theorem cutAux_sizes {gear : Nat → Nat} {data : List Nat} :
    ∀ fuel offset s, s ∈ chunkSizes offset (cutAux gear data fuel offset) →
      MinSize < s ∧ s ≤ MaxSize := by
  intro fuel
  induction fuel with
  | zero => intro offset s hs; simp [cutAux, chunkSizes] at hs
  | succ fuel ih =>
    intro offset s hs
    by_cases h : MinSize < data.length - offset
    · obtain ⟨c, hc, hlo, hhi⟩ := @cutStep_some gear data offset h
      rw [cutAux_cons hc (by omega), chunkSizes] at hs
      rcases List.mem_cons.mp hs with h1 | h2
      · subst h1; omega
      · exact ih c s (by simpa using h2)
    · rw [cutAux_nil (cutStep_none_iff.mpr (by omega))] at hs
      simp [chunkSizes] at hs

/-- Cut points are strictly above the starting offset and at most the
input length. -/
theorem cutAux_mem_bounds {gear : Nat → Nat} {data : List Nat} :
    ∀ fuel offset c, c ∈ cutAux gear data fuel offset →
      offset < c ∧ c ≤ data.length := by
  intro fuel
  induction fuel with
  | zero => intro offset c hc; simp [cutAux] at hc
  | succ fuel ih =>
    intro offset c hc
    by_cases h : MinSize < data.length - offset
    · obtain ⟨c0, hc0, hlo, hhi⟩ := @cutStep_some gear data offset h
      rw [cutAux_cons hc0 (by omega)] at hc
      rcases List.mem_cons.mp hc with h1 | h2
      · subst h1; omega
      · have := ih c0 c (by simpa using h2); omega
    · rw [cutAux_nil (cutStep_none_iff.mpr (by omega))] at hc
      simp at hc

/-- The unconsumed tail after the last emitted cut never exceeds `MinSize`,
provided the fuel covers the remaining bytes (it does for `Cut`). -/
theorem cutAux_tail {gear : Nat → Nat} {data : List Nat} :
    ∀ fuel offset, data.length - offset ≤ fuel →
      data.length - lastEnd offset (cutAux gear data fuel offset) ≤ MinSize := by
  intro fuel
  induction fuel with
  | zero => intro offset h; simp only [cutAux, lastEnd, List.getLastD_nil]; omega
  | succ fuel ih =>
    intro offset h
    by_cases hg : MinSize < data.length - offset
    · obtain ⟨c, hc, hlo, hhi⟩ := @cutStep_some gear data offset hg
      rw [cutAux_cons hc (by omega)]
      have hrec := ih c (by omega)
      simp only [Nat.add_sub_cancel]
      simp only [lastEnd, List.getLastD_cons]
      exact hrec
    · rw [cutAux_nil (cutStep_none_iff.mpr (by omega))]
      simp only [lastEnd, List.getLastD_nil]
      omega

theorem getD_replicate {n i a d : Nat} (h : i < n) :
    (List.replicate n a).getD i d = a := by
  rw [List.getD_eq_getElem?_getD, List.getElem?_replicate, if_pos h]
  rfl

/-- Evaluation helper: on an input of exactly `MinSize + 1` bytes whose
single scanned fingerprint does not match the strict mask, `cutStep` at
offset 0 forces a cut at the end of the input. -/
theorem cutStep_min_plus_one {gear : Nat → Nat} {data : List Nat}
    (hlen : data.length = MinSize + 1)
    (hfp : ¬ (((0 <<< 1) + gear (data.getD MinSize 0)) % 2 ^ 64 &&& maskS == 0) = true) :
    cutStep gear data 0 = some (MinSize + 1) := by
  unfold cutStep
  rw [hlen]
  rw [if_neg (by omega)]
  dsimp only
  have hnl : min AvgSize (MinSize + 1) = MinSize + 1 := by
    have := min_lt_avg
    omega
  have hml : min MaxSize (MinSize + 1) = MinSize + 1 := by
    have := min_lt_max
    omega
  simp only [Nat.zero_add]
  rw [hnl, hml]
  have hfuel : MinSize + 1 - MinSize = 1 := by omega
  rw [hfuel, scan_one, if_neg hfp]
  have h0 : MinSize + 1 - (MinSize + 1) = 0 := by omega
  rw [h0]
  dsimp only [scan_zero]

/-- Evaluation of `Cut` on the concrete counterexample input: 4097 zero
bytes, one more than `MinSize`, under the modelled gear table. The strict
mask does not match the single scanned fingerprint, the input ends before
`MaxSize`, and the code emits the forced cut at the end of the input,
4097. -/
theorem cut_zeros_eval :
    Cut gearTable (List.replicate 4097 0) = [4097] := by
  have hlen : (List.replicate 4097 (0 : Nat)).length = 4097 := by
    rw [List.length_replicate]
  have h47 : MinSize + 1 = 4097 := by rw [MinSize_eq]
  have hstep : cutStep gearTable (List.replicate 4097 0) 0 = some 4097 := by
    have := @cutStep_min_plus_one gearTable (List.replicate 4097 0)
      (by rw [hlen, h47])
      (by rw [getD_replicate (by rw [MinSize_eq]; omega)]; decide)
    rw [h47] at this
    exact this
  have hstop : cutStep gearTable (List.replicate 4097 0) 4097 = none :=
    cutStep_none_iff.mpr (by rw [hlen]; omega)
  unfold Cut
  rw [cutAux_cons hstep (by rw [hlen]; omega), cutAux_nil hstop]

end Chunker

/-! ## Claim C2: chunk size bounds -/

/-- C2: for every gear table and every input `B`, every chunk delimited by
`Cut(B)` — the bytes between consecutive emitted cut offsets starting at
offset 0, excluding the unconsumed tail after the last emitted cut — has
size `s` with `MinSize ≤ s ≤ MaxSize`. -/
theorem C2_chunk_size_bounds (gear : Nat → Nat) (data : List Nat) (s : Nat)
    (hs : s ∈ Chunker.chunkSizes 0 (Chunker.Cut gear data)) :
    Chunker.MinSize ≤ s ∧ s ≤ Chunker.MaxSize := by
  have := @Chunker.cutAux_sizes gear data (data.length + 1) 0 s hs
  omega

/-- Witness for C2 at a concrete input: `Cut` of 4097 zero bytes emits one
chunk of size 4097, which satisfies the bounds. -/
theorem C2_chunk_size_bounds_witness :
    Chunker.MinSize ≤ 4097 ∧ 4097 ≤ Chunker.MaxSize :=
  C2_chunk_size_bounds Chunker.gearTable (List.replicate 4097 0) 4097
    (by rw [Chunker.cut_zeros_eval]; simp [Chunker.chunkSizes])

/-! ## Claim C3: stop condition and forced-cut placement -/

namespace Chunker

/-- Scan A at the counterexample input: one iteration, fingerprint misses
the strict mask. -/
theorem scanA_zeros :
    (scan gearTable (List.replicate 4097 0) maskS
      (min (0 + AvgSize) (List.replicate 4097 (0 : Nat)).length - (0 + MinSize))
      0 (0 + MinSize)).1 = none := by
  rw [List.length_replicate]
  have hf : min (0 + AvgSize) 4097 - (0 + MinSize) = 1 := by decide
  rw [hf, scan_one, getD_replicate (by decide), if_neg (by decide)]

/-- Scan B at the counterexample input: the window is empty (the input
ends at the normalized limit). -/
theorem scanB_zeros :
    (scan gearTable (List.replicate 4097 0) maskL
      (min (0 + MaxSize) (List.replicate 4097 (0 : Nat)).length -
        min (0 + AvgSize) (List.replicate 4097 (0 : Nat)).length)
      (scan gearTable (List.replicate 4097 0) maskS
        (min (0 + AvgSize) (List.replicate 4097 (0 : Nat)).length - (0 + MinSize))
        0 (0 + MinSize)).2
      (min (0 + AvgSize) (List.replicate 4097 (0 : Nat)).length)).1 = none := by
  rw [List.length_replicate]
  have hf : min (0 + MaxSize) 4097 - min (0 + AvgSize) 4097 = 0 := by decide
  rw [hf, scan_zero]

end Chunker

/-- C3 (amended): an invocation of `Cut` at offset `o` emits no further
cuts and stops when at most `min_size` bytes remain past `o` (so also when
fewer than `min_size` remain, as the claim says, and the unconsumed tail
left behind never exceeds `min_size`); a forced cut is emitted when the
scans reach `min(o + max_size, end)` with no fingerprint match, and it is
placed at exactly `min(o + max_size, end)` — so when the input ends before
`o + max_size` with no mask match (and more than `min_size` bytes remain),
the code emits a cut at the end of the input covering that tail rather
than leaving it as the unconsumed remainder. -/
theorem C3_stop_and_forced_cut :
    (∀ gear (data : List Nat), Chunker.Cut gear data = [] ↔ data.length ≤ Chunker.MinSize) ∧
    (∀ gear (data : List Nat),
      data.length - Chunker.lastEnd 0 (Chunker.Cut gear data) ≤ Chunker.MinSize) ∧
    (∀ gear (data : List Nat) (offset : Nat), Chunker.MinSize < data.length - offset →
      (Chunker.scan gear data Chunker.maskS
        (min (offset + Chunker.AvgSize) data.length - (offset + Chunker.MinSize))
        0 (offset + Chunker.MinSize)).1 = none →
      (Chunker.scan gear data Chunker.maskL
        (min (offset + Chunker.MaxSize) data.length - min (offset + Chunker.AvgSize) data.length)
        (Chunker.scan gear data Chunker.maskS
          (min (offset + Chunker.AvgSize) data.length - (offset + Chunker.MinSize))
          0 (offset + Chunker.MinSize)).2
        (min (offset + Chunker.AvgSize) data.length)).1 = none →
      Chunker.cutStep gear data offset = some (min (offset + Chunker.MaxSize) data.length)) := by
  refine ⟨fun gear data => ⟨fun h => ?_, fun h => ?_⟩, fun gear data => ?_,
    fun gear data offset h hA hB => Chunker.cutStep_forced h hA hB⟩
  · by_contra hlen
    obtain ⟨c, hc, -, -⟩ := @Chunker.cutStep_some gear data 0 (by omega)
    rw [Chunker.Cut, Chunker.cutAux_cons hc (by omega)] at h
    exact List.noConfusion h
  · exact Chunker.cutAux_nil (Chunker.cutStep_none_iff.mpr (by omega))
  · exact Chunker.cutAux_tail (data.length + 1) 0 (by omega)

/-- Witness for C3 (amended) at concrete inputs: a 3-byte input yields no
cuts, and at the 4097-byte zero input (more than `min_size` remaining,
both scans matchless, input ending before `max_size`) the step emits the
forced cut at `min(0 + max_size, 4097) = 4097`. -/
theorem C3_stop_and_forced_cut_witness :
    Chunker.Cut Chunker.gearTable (List.replicate 3 0) = [] ∧
    Chunker.cutStep Chunker.gearTable (List.replicate 4097 0) 0 =
      some (min (0 + Chunker.MaxSize) (List.replicate 4097 (0 : Nat)).length) :=
  ⟨(C3_stop_and_forced_cut.1 _ _).mpr (by rw [List.length_replicate]; decide),
   C3_stop_and_forced_cut.2.2 _ _ 0 (by rw [List.length_replicate]; decide)
     Chunker.scanA_zeros Chunker.scanB_zeros⟩

/-- C3 counterexample against the claim as stated: on 4097 zero bytes (one
more than `min_size`) the input ends at 4097, strictly before
`o + max_size = 65536`, and the single scanned fingerprint misses the
strict mask (no mask match anywhere), yet `Cut` emits a cut at 4097
covering that tail — the claim says no cut covering the tail is emitted
and the bytes are left as the unconsumed remainder. -/
theorem C3_counterexample :
    Chunker.Cut Chunker.gearTable (List.replicate 4097 0) = [4097] ∧
    4097 < 0 + Chunker.MaxSize ∧
    ¬ ((((0 <<< 1) + Chunker.gearTable ((List.replicate 4097 (0 : Nat)).getD 4096 0)) % 2 ^ 64)
        &&& Chunker.maskS = 0) :=
  ⟨Chunker.cut_zeros_eval, by decide,
   by rw [Chunker.getD_replicate (by decide)]; decide⟩

/-! ## Store and pipeline lemmas -/

namespace Pipeline

/-- `putS` never overwrites an existing key. -/
theorem lookupA_putS_of_some {κ : Type} [DecidableEq κ] {σ : List (κ × List Nat)}
    {h : κ} {v : List Nat} (hl : lookupA σ h = some v) (h2 : κ) (d : List Nat) :
    lookupA (putS σ h2 d) h = some v := by
  unfold putS
  rcases he : lookupA σ h2 with - | v2
  · have hne : ¬ h = h2 := by
      intro he2; rw [he2, he] at hl; exact Option.noConfusion hl
    simpa [lookupA, hne] using hl
  · exact hl

/-- After `putS σ h d`, key `h` is present: with the old value if it was
already stored, else with `d`. -/
theorem lookupA_putS_self {κ : Type} [DecidableEq κ] (σ : List (κ × List Nat))
    (h : κ) (d : List Nat) :
    lookupA (putS σ h d) h = some ((lookupA σ h).getD d) := by
  unfold putS
  rcases he : lookupA σ h with - | v
  · simp [lookupA]
  · simpa using he

/-- Folding puts preserves present keys. -/
theorem foldPuts_mono {κ : Type} [DecidableEq κ] (H : List Nat → κ) :
    ∀ (js : List (List Nat)) (σ : List (κ × List Nat)) (h : κ) (v : List Nat),
      lookupA σ h = some v →
      lookupA (js.foldl (fun acc d => putS acc (H d) d) σ) h = some v := by
  intro js
  induction js with
  | nil => intro σ h v hl; exact hl
  | cons x rest ih =>
    intro σ h v hl
    exact ih _ _ _ (lookupA_putS_of_some hl _ _)

/-- After the workers put every job, each job's bytes are stored under its
hash — provided the hash function does not collide among the jobs and the
starting store does not hold different bytes under a job's hash. -/
theorem foldPuts_lookup {κ : Type} [DecidableEq κ] (H : List Nat → κ) :
    ∀ (js : List (List Nat)) (σ : List (κ × List Nat)),
      js.Pairwise (fun a b => H a = H b → a = b) →
      (∀ d ∈ js, ∀ v, lookupA σ (H d) = some v → v = d) →
      ∀ d ∈ js, lookupA (js.foldl (fun acc d => putS acc (H d) d) σ) (H d) = some d := by
  intro js
  induction js with
  | nil => intro σ _ _ d hd; simp at hd
  | cons x rest ih =>
    intro σ hpw hσ d hd
    rw [List.foldl_cons]
    have hx : lookupA (putS σ (H x) x) (H x) = some x := by
      rw [lookupA_putS_self]
      rcases he : lookupA σ (H x) with - | v
      · rfl
      · have := hσ x (by simp) v he
        simp [this]
    rcases List.mem_cons.mp hd with h1 | h2
    · subst h1
      exact foldPuts_mono H rest _ _ _ hx
    · refine ih _ (List.Pairwise.of_cons hpw) ?_ d h2
      intro e he v hv
      rcases hsig : lookupA σ (H x) with - | v2
      · rw [putS, hsig] at hv
        by_cases hxe : H e = H x
        · have hex : x = e := (List.pairwise_cons.mp hpw).1 e he hxe.symm
          rw [hxe] at hv
          simp [lookupA] at hv
          rw [← hv]
          exact hex
        · simp only [lookupA, if_neg hxe] at hv
          exact hσ e (by simp [he]) v hv
      · rw [putS, hsig] at hv
        exact hσ e (by simp [he]) v hv

end Pipeline

namespace Pipeline

/-- Splitting a consumed prefix at a cut point `c`. -/
theorem drop_take_split (data : List Nat) {offset c L : Nat}
    (h1 : offset ≤ c) (h2 : c ≤ L) :
    (data.take L).drop offset =
      (data.drop offset).take (c - offset) ++ (data.take L).drop c := by
  rw [List.drop_take, List.drop_take]
  have hc : data.drop c = (data.drop offset).drop (c - offset) := by
    rw [List.drop_drop]
    congr 1
    omega
  rw [hc, ← List.take_add]
  congr 1
  omega

/-- The last cut never moves backwards. -/
theorem lastEnd_cutAux_ge {gear : Nat → Nat} {data : List Nat} :
    ∀ fuel offset, offset ≤ Chunker.lastEnd offset (Chunker.cutAux gear data fuel offset) := by
  intro fuel
  induction fuel with
  | zero => intro offset; simp [Chunker.cutAux, Chunker.lastEnd]
  | succ fuel ih =>
    intro offset
    by_cases h : Chunker.MinSize < data.length - offset
    · obtain ⟨c, hc, hlo, hhi⟩ := @Chunker.cutStep_some gear data offset h
      rw [Chunker.cutAux_cons hc (by omega)]
      simp only [Nat.add_sub_cancel, Chunker.lastEnd, List.getLastD_cons]
      have := ih c
      simp only [Chunker.lastEnd] at this
      omega
    · rw [Chunker.cutAux_nil (Chunker.cutStep_none_iff.mpr (by omega))]
      simp [Chunker.lastEnd]

/-- The last cut stays within the input. -/
theorem lastEnd_cutAux_le {gear : Nat → Nat} {data : List Nat} :
    ∀ fuel offset, offset ≤ data.length →
      Chunker.lastEnd offset (Chunker.cutAux gear data fuel offset) ≤ data.length := by
  intro fuel
  induction fuel with
  | zero => intro offset h; simpa [Chunker.cutAux, Chunker.lastEnd] using h
  | succ fuel ih =>
    intro offset h
    by_cases hg : Chunker.MinSize < data.length - offset
    · obtain ⟨c, hc, hlo, hhi⟩ := @Chunker.cutStep_some gear data offset hg
      rw [Chunker.cutAux_cons hc (by omega)]
      simp only [Nat.add_sub_cancel, Chunker.lastEnd, List.getLastD_cons]
      have := ih c (by omega)
      simpa [Chunker.lastEnd] using this
    · rw [Chunker.cutAux_nil (Chunker.cutStep_none_iff.mpr (by omega))]
      simpa [Chunker.lastEnd] using h

/-- The slices delimited by the emitted cuts concatenate to the input
between the starting offset and the last cut. -/
theorem flatten_slicesFrom_cutAux {gear : Nat → Nat} {data : List Nat} :
    ∀ fuel offset, offset ≤ data.length →
      (slicesFrom data offset (Chunker.cutAux gear data fuel offset)).flatten =
        (data.take (Chunker.lastEnd offset (Chunker.cutAux gear data fuel offset))).drop offset := by
  intro fuel
  induction fuel with
  | zero =>
    intro offset h
    simp only [Chunker.cutAux, slicesFrom, List.flatten_nil, Chunker.lastEnd,
      List.getLastD_nil]
    rw [List.drop_take]
    simp
  | succ fuel ih =>
    intro offset h
    by_cases hg : Chunker.MinSize < data.length - offset
    · obtain ⟨c, hc, hlo, hhi⟩ := @Chunker.cutStep_some gear data offset hg
      rw [Chunker.cutAux_cons hc (by omega)]
      simp only [Nat.add_sub_cancel, slicesFrom, List.flatten_cons, Chunker.lastEnd,
        List.getLastD_cons]
      have hrec := ih c (by omega)
      rw [hrec]
      have hge := @lastEnd_cutAux_ge gear data fuel c
      simp only [Chunker.lastEnd] at hge ⊢
      rw [← drop_take_split data (by omega) hge]
    · rw [Chunker.cutAux_nil (Chunker.cutStep_none_iff.mpr (by omega))]
      simp only [slicesFrom, List.flatten_nil, Chunker.lastEnd, List.getLastD_nil]
      rw [List.drop_take]
      simp

/-- The emitted jobs concatenate to the carried remainder followed by all
remaining reads: no byte is lost or duplicated by the streaming CDC. -/
theorem generateJobs_flatten (gear : Nat → Nat) :
    ∀ (reads : List (List Nat)) (remainder : List Nat),
      (generateJobs gear reads remainder).flatten = remainder ++ reads.flatten := by
  intro reads
  induction reads with
  | nil =>
    intro remainder
    by_cases h : remainder.length > 0
    · simp [generateJobs, h]
    · have : remainder = [] := by
        cases remainder with
        | nil => rfl
        | cons a l => simp at h
      simp [generateJobs, this]
  | cons r rs ih =>
    intro remainder
    by_cases h : r.length > 0
    · rw [generateJobs]
      rw [if_pos h]
      rw [List.flatten_append, ih]
      have hfl := @flatten_slicesFrom_cutAux gear (remainder ++ r)
        ((remainder ++ r).length + 1) 0 (by omega)
      rw [Chunker.Cut, hfl]
      rw [List.drop_zero]
      rw [← List.append_assoc, List.take_append_drop]
      simp
    · have hr : r = [] := by
        cases r with
        | nil => rfl
        | cons a l => simp at h
      rw [generateJobs, if_neg h, ih, hr]
      simp

/-- Exporting a list of links whose hashes all resolve to their bytes
yields the concatenation of the bytes. -/
theorem exportFileSerial_flatten {κ : Type} [DecidableEq κ] (σ : List (κ × List Nat))
    (H : List Nat → κ) :
    ∀ (js : List (List Nat)), (∀ d ∈ js, lookupA σ (H d) = some d) →
      exportFileSerial σ (js.map (fun d => ChunkLink.mk (H d) d.length)) = some js.flatten := by
  intro js
  induction js with
  | nil => intro _; simp [exportFileSerial]
  | cons d rest ih =>
    intro hl
    rw [List.map_cons, exportFileSerial]
    rw [hl d (by simp)]
    rw [ih (fun e he => hl e (by simp [he]))]
    simp

end Pipeline

/-! ## Claim C1: ingest/export round-trip -/

/-- C1: for every byte sequence (presented as any sequence of reader
results), `IngestFile` produces a FileNode whose serial export —
concatenating its chunks in order, each chunk's stored bytes fetched by
its hash from the store left by the ingest — yields exactly the input
bytes. Hypotheses: the blob hash does not collide on the emitted chunks
(SHA-256 collision freedom for the run), and the starting store does not
already map a chunk's hash to different bytes (the standing CAS
invariant). -/
theorem C1_roundtrip {κ : Type} [DecidableEq κ] (gear : Nat → Nat) (H : List Nat → κ)
    (nodePut : Pipeline.FileNode κ → κ × List Nat) (reads : List (List Nat))
    (σ0 : List (κ × List Nat))
    (hinj : (Pipeline.generateJobs gear reads []).Pairwise (fun a b => H a = H b → a = b))
    (hσ0 : ∀ d ∈ Pipeline.generateJobs gear reads [], ∀ v, lookupA σ0 (H d) = some v → v = d) :
    Pipeline.exportFileSerial (Pipeline.IngestFile gear H nodePut reads σ0).2
      (Pipeline.IngestFile gear H nodePut reads σ0).1.chunks = some reads.flatten := by
  unfold Pipeline.IngestFile
  dsimp only
  have hstored : ∀ d ∈ Pipeline.generateJobs gear reads [],
      lookupA ((Pipeline.generateJobs gear reads []).foldl
        (fun acc d => Pipeline.putS acc (H d) d) σ0) (H d) = some d :=
    Pipeline.foldPuts_lookup H _ σ0 hinj hσ0
  have hstored2 : ∀ d ∈ Pipeline.generateJobs gear reads [],
      lookupA (Pipeline.putS ((Pipeline.generateJobs gear reads []).foldl
          (fun acc d => Pipeline.putS acc (H d) d) σ0)
        (nodePut ⟨((Pipeline.generateJobs gear reads []).map List.length).sum,
          (Pipeline.generateJobs gear reads []).map
            (fun d => Pipeline.ChunkLink.mk (H d) d.length)⟩).1
        (nodePut ⟨((Pipeline.generateJobs gear reads []).map List.length).sum,
          (Pipeline.generateJobs gear reads []).map
            (fun d => Pipeline.ChunkLink.mk (H d) d.length)⟩).2) (H d) = some d :=
    fun d hd => Pipeline.lookupA_putS_of_some (hstored d hd) _ _
  rw [Pipeline.exportFileSerial_flatten _ H _ hstored2]
  rw [Pipeline.generateJobs_flatten]
  simp

/-- Witness for C1 at a concrete input: ingesting the single read
`[1, 2, 3]` (shorter than `MinSize`, so it is the single terminal chunk)
with the identity hash into the empty store and serially exporting the
produced FileNode returns `[1, 2, 3]`. -/
theorem C1_roundtrip_witness :
    Pipeline.exportFileSerial
        (Pipeline.IngestFile (fun _ => 1) (fun d => d) (fun _ => ([9], [7])) [[1, 2, 3]] []).2
        (Pipeline.IngestFile (fun _ => 1) (fun d => d) (fun _ => ([9], [7])) [[1, 2, 3]] []).1.chunks
      = some ([[1, 2, 3]] : List (List Nat)).flatten :=
  C1_roundtrip (fun _ => 1) (fun d => d) (fun _ => ([9], [7])) [[1, 2, 3]] []
    (by decide)
    (by intro d _ v hv; simp [lookupA] at hv)

/-! ## Claim C4: ref optimistic-concurrency CAS -/

namespace Meta

/-- The row updater of the conditional UPDATE. -/
theorem getRef_map_upd (name newHash : String) (v : Int) :
    ∀ (db : List Ref), db.Pairwise (fun a b => a.name ≠ b.name) →
      ∀ r ∈ db, r.name = name → r.version = v →
      GetRef (db.map (fun r => if r.name == name && r.version == v then
          { r with commitHash := newHash, version := r.version + 1 } else r)) name =
        some ⟨name, newHash, v + 1⟩ := by
  intro db
  induction db with
  | nil => intro _ r hr; simp at hr
  | cons a rest ih =>
    intro hpw r hr hname hver
    rcases List.mem_cons.mp hr with h1 | h2
    · subst h1
      have hcond : (r.name == name && r.version == v) = true := by
        simp [hname, hver]
      rw [List.map_cons, GetRef, List.find?_cons]
      rw [if_pos hcond]
      have : (({ r with commitHash := newHash, version := r.version + 1 } : Ref).name
          == name) = true := by simp [hname]
      rw [this]
      simp [hname, hver]
    · have hane : a.name ≠ name := by
        have := (List.pairwise_cons.mp hpw).1 r h2
        intro he
        have hrn : r.name = name := hname
        exact this (he.trans hrn.symm)
      rw [List.map_cons, GetRef, List.find?_cons]
      have hcond : (a.name == name && a.version == v) = false ∨
          (a.name == name && a.version == v) = true := by
        rcases Bool.eq_false_or_eq_true _ with h | h
        · exact .inr h
        · exact .inl h
      have hcondf : (a.name == name) = false := by
        simp [hane]
      rw [Bool.and_eq_true] at *
      have : (if (a.name == name && a.version == v) = true then
          ({ a with commitHash := newHash, version := a.version + 1 } : Ref) else a).name
          = a.name := by
        split
        · rfl
        · rfl
      have hskip : ((if (a.name == name && a.version == v) = true then
          ({ a with commitHash := newHash, version := a.version + 1 } : Ref) else a).name
          == name) = false := by
        rw [this]
        exact hcondf
      rw [hskip]
      exact ih (List.Pairwise.of_cons hpw) r h2 hname hver

end Meta

/-- C4: `UpdateRef(name, newHash, v)` with `v ≥ 1` succeeds if and only if
a stored ref named `name` currently has version `v`; on success that ref's
`commit_hash` becomes `newHash` and its version `v + 1`, with every other
ref unchanged; when zero rows match it returns the concurrent-update
(StaleRef) error, leaving the table untouched (an error return makes no
change). With `v = 0` it attempts to create the ref at version 1, and a
unique-constraint hit on `name` maps to the same StaleRef error. The
hypothesis is the primary-key invariant: names are unique. -/
theorem C4_ref_cas (db : List Meta.Ref) (name newHash : String) (v : Int)
    (hpw : db.Pairwise (fun a b => a.name ≠ b.name)) :
    (1 ≤ v →
      ((∃ r ∈ db, r.name = name ∧ r.version = v) ↔
        ∃ db2, Meta.UpdateRef db name newHash v = .ok db2) ∧
      (∀ db2, Meta.UpdateRef db name newHash v = .ok db2 →
        Meta.GetRef db2 name = some ⟨name, newHash, v + 1⟩ ∧
        ∀ r ∈ db, r.name ≠ name → r ∈ db2) ∧
      ((¬ ∃ r ∈ db, r.name = name ∧ r.version = v) →
        Meta.UpdateRef db name newHash v = .error .concurrentUpdate)) ∧
    (Meta.UpdateRef db name newHash 0 =
      if ∃ r ∈ db, r.name = name then .error .concurrentUpdate
      else .ok (⟨name, newHash, 1⟩ :: db)) := by
  have hupd : ∀ w : Int, (w == 0) = false → Meta.UpdateRef db name newHash w =
      (if (db.countP (fun r => r.name == name && r.version == w) == 0) = true
        then .error .concurrentUpdate
        else .ok (db.map (fun r => if r.name == name && r.version == w then
          { r with commitHash := newHash, version := r.version + 1 } else r))) := by
    intro w hw
    unfold Meta.UpdateRef
    rw [if_neg (by simp [hw])]
  constructor
  · intro hv
    have hvne : (v == 0) = false := by
      have hne : v ≠ 0 := by omega
      simpa using hne
    have hcount : (0 < db.countP (fun r => r.name == name && r.version == v)) ↔
        (∃ r ∈ db, r.name = name ∧ r.version = v) := by
      rw [List.countP_pos_iff]
      constructor
      · rintro ⟨r, hr, hp⟩
        rw [Bool.and_eq_true] at hp
        exact ⟨r, hr, by simpa using hp.1, by simpa using hp.2⟩
      · rintro ⟨r, hr, h1, h2⟩
        exact ⟨r, hr, by simp [h1, h2]⟩
    refine ⟨⟨?_, ?_⟩, ?_, ?_⟩
    · intro hex
      have hpos := hcount.mpr hex
      have hne0 : ¬ ((db.countP (fun r => r.name == name && r.version == v) == 0) = true) := by
        simp only [beq_iff_eq]
        omega
      rw [hupd v hvne, if_neg hne0]
      exact ⟨_, rfl⟩
    · rintro ⟨db2, hok⟩
      rw [hupd v hvne] at hok
      by_cases hc : db.countP (fun r => r.name == name && r.version == v) = 0
      · rw [if_pos (by simpa using hc)] at hok
        exact Except.noConfusion hok
      · exact hcount.mp (by omega)
    · intro db2 hok
      rw [hupd v hvne] at hok
      by_cases hc : db.countP (fun r => r.name == name && r.version == v) = 0
      · rw [if_pos (by simpa using hc)] at hok
        exact Except.noConfusion hok
      · rw [if_neg (by simpa using hc)] at hok
        have hdb2 := (Except.ok.inj hok).symm
        obtain ⟨r, hr, hp, hvv⟩ := hcount.mp (by omega)
        constructor
        · rw [hdb2]
          exact Meta.getRef_map_upd name newHash v db hpw r hr hp hvv
        · intro r2 hr2 hne
          rw [hdb2]
          refine List.mem_map.mpr ⟨r2, hr2, ?_⟩
          rw [if_neg (by simp [hne])]
    · intro hnex
      have hz : db.countP (fun r => r.name == name && r.version == v) = 0 := by
        by_contra hc
        exact hnex (hcount.mp (by omega))
      rw [hupd v hvne, if_pos (by simpa using hz)]
  · unfold Meta.UpdateRef
    rw [if_pos (by simp)]
    by_cases hex : ∃ r ∈ db, r.name = name
    · rw [if_pos hex]
      have hany : db.any (fun r => r.name == name) = true := by
        rw [List.any_eq_true]
        obtain ⟨r, hr, he⟩ := hex
        exact ⟨r, hr, by simp [he]⟩
      rw [if_pos hany]
    · rw [if_neg hex]
      have hany : db.any (fun r => r.name == name) = false := by
        rw [List.any_eq_false]
        intro r hr hcon
        exact hex ⟨r, hr, by simpa using hcon⟩
      rw [hany]
      simp

/-- Witness for C4 at a concrete table holding ref `main` at version 1:
updating with the matching version succeeds; updating with a stale
version (7) fails with the concurrent-update error; creating (`v = 0`)
over the existing name fails with the same error. -/
theorem C4_ref_cas_witness :
    (∃ db2, Meta.UpdateRef [⟨"main", "h0", 1⟩] "main" "h1" 1 = .ok db2) ∧
    Meta.UpdateRef [⟨"main", "h0", 1⟩] "main" "h1" 7 = .error .concurrentUpdate ∧
    Meta.UpdateRef [⟨"main", "h0", 1⟩] "main" "h1" 0 = .error .concurrentUpdate := by
  refine ⟨?_, ?_, ?_⟩
  · exact ((C4_ref_cas [⟨"main", "h0", 1⟩] "main" "h1" 1 (by simp)).1 (by norm_num)).1.mp
      ⟨⟨"main", "h0", 1⟩, by simp, rfl, rfl⟩
  · refine ((C4_ref_cas [⟨"main", "h0", 1⟩] "main" "h1" 7 (by simp)).1 (by norm_num)).2.2 ?_
    rintro ⟨r, hr, h1, h2⟩
    simp at hr
    rw [hr] at h2
    simp at h2
  · rw [(C4_ref_cas [⟨"main", "h0", 1⟩] "main" "h1" 0 (by simp)).2]
    rw [if_pos ⟨⟨"main", "h0", 1⟩, by simp, rfl⟩]

/-! ## Claim C5: upload integrity check -/

/-- C5: at end of stream the tee-computed SHA-256 of the received bytes
(`sha reads.flatten`) is compared to the client-declared linear hash. On
mismatch `Upload` returns the data-loss (IntegrityFailure) outcome and
writes no `file_indices` row. On match it saves the index row
(`linear_hash -> (merkle_root, total_size)` through `SaveFileIndex`), and
a failure of that index write does not fail the upload: the response still
acknowledges success with the FileNode hash and size (and the index is
then unchanged). -/
theorem C5_upload_integrity {κ lh : Type} [DecidableEq κ] [DecidableEq lh]
    (gear : Nat → Nat) (H : List Nat → κ) (nodePut : Pipeline.FileNode κ → κ × List Nat)
    (sha : List Nat → lh) (clientLH : lh) (reads : List (List Nat))
    (σ : List (κ × List Nat)) (indices : List (lh × κ × Nat)) (fails : Bool) :
    (sha reads.flatten ≠ clientLH →
      (Service.Upload gear H nodePut sha clientLH reads σ indices fails).1 =
        .integrityFailure ∧
      (Service.Upload gear H nodePut sha clientLH reads σ indices fails).2.2 = indices) ∧
    (sha reads.flatten = clientLH →
      (Service.Upload gear H nodePut sha clientLH reads σ indices fails).1 =
        .ok (nodePut (Pipeline.IngestFile gear H nodePut reads σ).1).1
          (Pipeline.IngestFile gear H nodePut reads σ).1.totalSize ∧
      (fails = false →
        (Service.Upload gear H nodePut sha clientLH reads σ indices fails).2.2 =
          Meta.SaveFileIndex indices clientLH
            (nodePut (Pipeline.IngestFile gear H nodePut reads σ).1).1
            (Pipeline.IngestFile gear H nodePut reads σ).1.totalSize) ∧
      (fails = true →
        (Service.Upload gear H nodePut sha clientLH reads σ indices fails).2.2 = indices)) := by
  constructor
  · intro hne
    unfold Service.Upload
    rw [if_pos hne]
    exact ⟨rfl, rfl⟩
  · intro heq
    unfold Service.Upload
    rw [if_neg (by simpa using heq)]
    refine ⟨rfl, ?_, ?_⟩
    · intro hf
      rw [hf]
      simp [heq]
    · intro hf
      rw [hf]
      simp

/-- Witness for C5 at concrete inputs (identity hashes, single read
`[1,2,3]`): declaring `[5]` mismatches and yields the integrity failure
with no index row; declaring `[1,2,3]` matches, and even with the index
write failing the response still acknowledges the FileNode hash `[9]` and
size 3 while the index stays empty. -/
theorem C5_upload_integrity_witness :
    (Service.Upload (fun _ => 1) (fun d => d) (fun _ => ([9], [7])) (fun d => d)
      [5] [[1, 2, 3]] [] [] false).1 = .integrityFailure ∧
    (Service.Upload (fun _ => 1) (fun d => d) (fun _ => ([9], [7])) (fun d => d)
      [5] [[1, 2, 3]] [] [] false).2.2 = [] ∧
    (Service.Upload (fun _ => 1) (fun d => d) (fun _ => ([9], [7])) (fun d => d)
      [1, 2, 3] [[1, 2, 3]] [] [] true).1 = .ok [9] 3 ∧
    (Service.Upload (fun _ => 1) (fun d => d) (fun _ => ([9], [7])) (fun d => d)
      [1, 2, 3] [[1, 2, 3]] [] [] true).2.2 = [] := by
  refine ⟨?_, ?_, ?_, ?_⟩
  · exact ((C5_upload_integrity (fun _ => 1) (fun d => d) (fun _ => ([9], [7])) (fun d => d)
      [5] [[1, 2, 3]] [] [] false).1 (by decide)).1
  · exact ((C5_upload_integrity (fun _ => 1) (fun d => d) (fun _ => ([9], [7])) (fun d => d)
      [5] [[1, 2, 3]] [] [] false).1 (by decide)).2
  · have h := ((C5_upload_integrity (fun _ => 1) (fun d => d) (fun _ => ([9], [7]))
      (fun d => d) [1, 2, 3] [[1, 2, 3]] [] [] true).2 (by decide)).1
    rw [h]
    decide
  · exact ((C5_upload_integrity (fun _ => 1) (fun d => d) (fun _ => ([9], [7]))
      (fun d => d) [1, 2, 3] [[1, 2, 3]] [] [] true).2 (by decide)).2.2 rfl

/-! ## Claim C6: cache inconsistency -/

/-- C6 (amended): if the shared existence cache reports hash `h` present
while the backend store does not contain it, then `Has(h)` spuriously
returns true and a later `Get(h)` still resolves from the backend or
reports NotFound (`Get` passes the cache by entirely); however, `Put` of an
object whose ID is `h` pre-checks through `Has`, so the spurious cache
entry makes `Put` return success without writing: the whole state — in
particular the backend — is unchanged and the object remains absent from
the backend store. -/
theorem C6_cache_inconsistency {κ : Type} [DecidableEq κ]
    (st : Cache.CachedState κ) (h : κ) (d : List Nat) :
    (Cache.Get st h = lookupA st.backend h) ∧
    (h ∈ st.cache → (Cache.Has st h).1 = true) ∧
    (h ∈ st.cache → Cache.Put st h d = st) := by
  refine ⟨rfl, ?_, ?_⟩
  · intro hc
    unfold Cache.Has
    rw [if_pos hc]
  · intro hc
    unfold Cache.Put Cache.Has
    rw [if_pos hc]
    simp

/-- Witness for C6 (amended) at a concrete state: cache holds `5`, backend
holds only `7`. `Get 5` reports NotFound, `Has 5` spuriously answers true,
and `Put` of `(5, [9])` leaves the state — and thus the backend —
untouched. -/
theorem C6_cache_inconsistency_witness :
    Cache.Get (⟨[5], [(7, [1])]⟩ : Cache.CachedState Nat) 5 = none ∧
    (Cache.Has (⟨[5], [(7, [1])]⟩ : Cache.CachedState Nat) 5).1 = true ∧
    Cache.Put (⟨[5], [(7, [1])]⟩ : Cache.CachedState Nat) 5 [9] = ⟨[5], [(7, [1])]⟩ := by
  have h := C6_cache_inconsistency (⟨[5], [(7, [1])]⟩ : Cache.CachedState Nat) 5 [9]
  refine ⟨?_, h.2.1 (by decide), h.2.2 (by decide)⟩
  rw [h.1]
  decide

/-- C6 counterexample against the claim as stated: with hash `0` present
in the cache but absent from the backend, `Put` of the object `(0, [1])`
returns success without writing, and the object is still absent from the
backend afterwards — the claim says the Put still results in the object
being present in the backend store. -/
theorem C6_counterexample :
    Cache.Put (⟨[0], []⟩ : Cache.CachedState Nat) 0 [1] = ⟨[0], []⟩ ∧
    Cache.Get (Cache.Put (⟨[0], []⟩ : Cache.CachedState Nat) 0 [1]) 0 = none ∧
    (Cache.Has (⟨[0], []⟩ : Cache.CachedState Nat) 0).1 = true := by
  decide

/-! ## Claim C7: hash-prefix expansion -/

namespace Disk

/-- For prefixes of length at least 2, the shard test plus the in-shard
name test is exactly the whole-hash prefix test. -/
theorem prefix_split {short h : List Char} (hlen : 2 ≤ short.length) :
    (h.take 2 = short.take 2 ∧ short.drop 2 <+: h.drop 2) ↔ short <+: h := by
  constructor
  · rintro ⟨ht, t, hd⟩
    refine ⟨t, ?_⟩
    calc short ++ t = short.take 2 ++ (short.drop 2 ++ t) := by
          rw [← List.append_assoc, List.take_append_drop]
      _ = h.take 2 ++ h.drop 2 := by rw [← ht, hd]
      _ = h := List.take_append_drop ..
  · rintro ⟨t, ht⟩
    subst ht
    constructor
    · rw [List.take_append_eq_append_take]
      simp [Nat.sub_eq_zero_of_le hlen]
    · rw [List.drop_append_eq_append_drop]
      rw [Nat.sub_eq_zero_of_le hlen]
      simp only [List.drop_zero]
      exact ⟨t, rfl⟩

/-- The two filters of `ExpandHash` agree: in-shard matching by suffix is
whole-hash prefix matching. -/
theorem filter_eq_prefix_filter (stored : List (List Char)) (short : List Char)
    (hlen : 2 ≤ short.length) :
    stored.filter (fun h => h.take 2 = short.take 2 ∧ short.drop 2 <+: h.drop 2) =
      stored.filter (fun h => short <+: h) := by
  apply List.filter_congr
  intro h _
  have := prefix_split (h := h) hlen
  simp only [decide_eq_decide]
  exact this

end Disk

/-- C7: for every stored set of object hashes and every prefix `p`,
`ExpandHash(p)` returns the too-short error when `len(p) < 4`; otherwise
it returns the unique full hash when exactly one stored hash begins with
`p`, the Ambiguous error kind when more than one does, and the NotFound
error kind when none does. -/
theorem C7_expand_hash (stored : List (List Char)) (short : List Char)
    (hnd : stored.Nodup) :
    (short.length < 4 → Disk.ExpandHash stored short = .error .tooShort) ∧
    (4 ≤ short.length →
      ((stored.filter (fun h => short <+: h)).length = 0 →
        Disk.ExpandHash stored short = .error .notFound) ∧
      (∀ h, stored.filter (fun h2 => short <+: h2) = [h] →
        Disk.ExpandHash stored short = .ok h) ∧
      (2 ≤ (stored.filter (fun h => short <+: h)).length →
        Disk.ExpandHash stored short = .error .ambiguous)) := by
  constructor
  · intro hlt
    unfold Disk.ExpandHash
    rw [if_pos hlt]
  · intro hge
    have hlen2 : 2 ≤ short.length := by omega
    have hflt := Disk.filter_eq_prefix_filter stored short hlen2
    refine ⟨?_, ?_, ?_⟩
    · intro h0
      unfold Disk.ExpandHash
      rw [if_neg (by omega)]
      dsimp only
      by_cases hall : stored.all (fun h => ¬ h.take 2 = short.take 2) = true
      · rw [if_pos hall]
      · rw [if_neg hall]
        rw [hflt, if_pos h0]
    · intro h hone
      have hmem : h ∈ stored.filter (fun h2 => short <+: h2) := by
        rw [hone]; exact List.mem_singleton.mpr rfl
      have hpre : short <+: h := by
        have := List.of_mem_filter hmem
        simpa using this
      have hin : h ∈ stored := List.mem_of_mem_filter hmem
      have hshard : h.take 2 = short.take 2 :=
        ((Disk.prefix_split hlen2).mpr hpre).1
      unfold Disk.ExpandHash
      rw [if_neg (by omega)]
      dsimp only
      have hall : ¬ stored.all (fun h => ¬ h.take 2 = short.take 2) = true := by
        intro hall
        rw [List.all_eq_true] at hall
        have := hall h hin
        simp only [decide_eq_true_eq] at this
        exact this hshard
      rw [if_neg hall, hflt, hone]
      simp
    · intro h2
      have hne : stored.filter (fun h2 => short <+: h2) ≠ [] := by
        intro hnil
        rw [hnil] at h2
        simp at h2
      obtain ⟨h, hmem⟩ := List.exists_mem_of_ne_nil _ hne
      have hpre : short <+: h := by
        have := List.of_mem_filter hmem
        simpa using this
      have hin : h ∈ stored := List.mem_of_mem_filter hmem
      have hshard : h.take 2 = short.take 2 :=
        ((Disk.prefix_split hlen2).mpr hpre).1
      unfold Disk.ExpandHash
      rw [if_neg (by omega)]
      dsimp only
      have hall : ¬ stored.all (fun h => ¬ h.take 2 = short.take 2) = true := by
        intro hall
        rw [List.all_eq_true] at hall
        have := hall h hin
        simp only [decide_eq_true_eq] at this
        exact this hshard
      rw [if_neg hall, hflt]
      rw [if_neg (by omega), if_pos (by omega)]

/-- Witness for C7 at a concrete stored set
`{abcd1, abcd2, zzzz}`: a 3-character prefix errors, `zzzz` resolves
uniquely, `abcd` is ambiguous, and `qqqq` is not found. -/
theorem C7_expand_hash_witness :
    Disk.ExpandHash [['a','b','c','d','1'], ['a','b','c','d','2'], ['z','z','z','z']]
      ['a','b','c'] = .error .tooShort ∧
    Disk.ExpandHash [['a','b','c','d','1'], ['a','b','c','d','2'], ['z','z','z','z']]
      ['z','z','z','z'] = .ok ['z','z','z','z'] ∧
    Disk.ExpandHash [['a','b','c','d','1'], ['a','b','c','d','2'], ['z','z','z','z']]
      ['a','b','c','d'] = .error .ambiguous ∧
    Disk.ExpandHash [['a','b','c','d','1'], ['a','b','c','d','2'], ['z','z','z','z']]
      ['q','q','q','q'] = .error .notFound := by
  refine ⟨?_, ?_, ?_, ?_⟩
  · exact (C7_expand_hash _ _ (by decide)).1 (by decide)
  · exact ((C7_expand_hash _ ['z','z','z','z'] (by decide)).2 (by decide)).2.1
      ['z','z','z','z'] (by decide)
  · exact ((C7_expand_hash _ ['a','b','c','d'] (by decide)).2 (by decide)).2.2 (by decide)
  · exact ((C7_expand_hash _ ['q','q','q','q'] (by decide)).2 (by decide)).1 (by decide)

/-! ## Claim C9: existing object wins on Put -/

/-- C9 (implicit): for every object whose ID already has a file at its
sharded path in the disk store, `Put` returns success without modifying
that file — even when the object's bytes differ from the stored content —
and the whole filesystem, hence every file stored under every other hash,
is unchanged. -/
theorem C9_put_existing_wins (fs : List (List (List Char) × List Nat)) (id : List Char)
    (data d0 : List Nat) (hex : lookupA fs (Disk.layout id) = some d0) :
    Disk.Put fs id data = fs ∧
    lookupA (Disk.Put fs id data) (Disk.layout id) = some d0 := by
  unfold Disk.Put
  rw [hex]
  exact ⟨rfl, hex⟩

/-- Witness for C9: the store holds `[1, 2]` under hash `abc`; putting an
object with ID `abc` and different bytes `[9, 9]` leaves the filesystem
unchanged and `abc` still maps to `[1, 2]`. -/
theorem C9_put_existing_wins_witness :
    Disk.Put [([['a','b'], ['c']], [1, 2])] ['a','b','c'] [9, 9] =
      [([['a','b'], ['c']], [1, 2])] ∧
    lookupA (Disk.Put [([['a','b'], ['c']], [1, 2])] ['a','b','c'] [9, 9])
      (Disk.layout ['a','b','c']) = some [1, 2] :=
  C9_put_existing_wins [([['a','b'], ['c']], [1, 2])] ['a','b','c'] [9, 9] [1, 2] (by decide)

/-! ## Claim C10: FileNode total-size invariant is not enforced -/

/-- C10 (implicit): there is a `totalSize` (999) and chunk list (one chunk
of size 11) with `totalSize` different from the sum of the chunk sizes for
which `NewFileNode` returns a FileNode without error; the inconsistent
`totalSize` is embedded in the node's canonical encoding — and hence in
its hash, which is the SHA-256 of exactly those bytes (instantiated here
with the identity in place of SHA-256): the returned hashes for
`totalSize = 999` and for the consistent `totalSize = 11` differ. -/
theorem C10_filenode_no_validation :
    ((Core.NewFileNode (fun b => b) 999 [⟨List.replicate 64 'a', 11⟩]).map
      (fun o => o.1.totalSize)) = some 999 ∧
    (999 : Int) ≠ (([⟨List.replicate 64 'a', 11⟩] : List Core.ChunkLinkC).map
      Core.ChunkLinkC.size).sum ∧
    ((Core.NewFileNode (fun b => b) 999 [⟨List.replicate 64 'a', 11⟩]).map (fun o => o.2.1)) ≠
      ((Core.NewFileNode (fun b => b) 11 [⟨List.replicate 64 'a', 11⟩]).map (fun o => o.2.1)) := by
  refine ⟨by decide, by decide, by decide⟩

/-! ## Claim C8: tree-builder determinism -/

namespace TreeBuilder

theorem keyLt_irrefl : ∀ a : List Char, keyLt a a = false := by
  intro a
  induction a with
  | nil => rfl
  | cons c cs ih => simp [keyLt, ih]

theorem keyLt_asymm : ∀ a b : List Char, keyLt a b = true → keyLt b a = false := by
  intro a
  induction a with
  | nil =>
    intro b hb
    cases b with
    | nil => simpa [keyLt] using hb
    | cons c cs => simp [keyLt]
  | cons c cs ih =>
    intro b hb
    cases b with
    | nil => simpa [keyLt] using hb
    | cons d ds =>
      simp only [keyLt] at hb ⊢
      by_cases h1 : c.toNat < d.toNat
      · rw [if_neg (by omega), if_pos h1]
      · by_cases h2 : d.toNat < c.toNat
        · rw [if_neg h1, if_pos h2] at hb
          exact absurd hb (by simp)
        · rw [if_neg h1, if_neg h2] at hb
          rw [if_neg h2, if_neg h1]
          exact ih ds hb

theorem keyLt_conn : ∀ a b : List Char, a ≠ b → keyLt a b = true ∨ keyLt b a = true := by
  intro a
  induction a with
  | nil =>
    intro b hb
    cases b with
    | nil => exact absurd rfl hb
    | cons c cs => left; rfl
  | cons c cs ih =>
    intro b hb
    cases b with
    | nil => right; rfl
    | cons d ds =>
      simp only [keyLt]
      by_cases h1 : c.toNat < d.toNat
      · left; rw [if_pos h1]
      · by_cases h2 : d.toNat < c.toNat
        · right; rw [if_pos h2]
        · have hcd : c = d := Char.ext (UInt32.ext (show c.toNat = d.toNat by omega))
          have hne : cs ≠ ds := by
            intro he
            exact hb (by rw [hcd, he])
          rcases ih ds hne with h | h
          · left; rw [if_neg h1, if_neg h2]; exact h
          · right; rw [if_neg h2, if_neg h1]; exact h

theorem keyLt_trans : ∀ a b c : List Char, keyLt a b = true → keyLt b c = true →
    keyLt a c = true := by
  intro a
  induction a with
  | nil =>
    intro b c hab hbc
    cases c with
    | nil =>
      cases b with
      | nil => simpa [keyLt] using hab
      | cons d ds => simpa [keyLt] using hbc
    | cons d ds => rfl
  | cons x xs ih =>
    intro b c hab hbc
    cases b with
    | nil => simpa [keyLt] using hab
    | cons y ys =>
      cases c with
      | nil => simpa [keyLt] using hbc
      | cons z zs =>
        simp only [keyLt] at hab hbc ⊢
        by_cases hxy : x.toNat < y.toNat
        · by_cases hyz : y.toNat < z.toNat
          · rw [if_pos (by omega)]
          · by_cases hzy : z.toNat < y.toNat
            · rw [if_neg hyz, if_pos hzy] at hbc
              exact absurd hbc (by simp)
            · rw [if_pos (by omega)]
        · by_cases hyx : y.toNat < x.toNat
          · rw [if_neg hxy, if_pos hyx] at hab
            exact absurd hab (by simp)
          · rw [if_neg hxy, if_neg hyx] at hab
            by_cases hyz : y.toNat < z.toNat
            · rw [if_pos (by omega)]
            · by_cases hzy : z.toNat < y.toNat
              · rw [if_neg hyz, if_pos hzy] at hbc
                exact absurd hbc (by simp)
              · rw [if_neg hyz, if_neg hzy] at hbc
                rw [if_neg (by omega), if_neg (by omega)]
                exact ih ys zs hab hbc

end TreeBuilder

namespace TreeBuilder

theorem keyLt_total_not {a b : List Char} (h1 : keyLt a b = false) (hne : a ≠ b) :
    keyLt b a = true := by
  rcases keyLt_conn a b hne with h | h
  · rw [h1] at h; exact absurd h (by simp)
  · exact h

theorem keyLt_ne {a b : List Char} (h : keyLt a b = true) : a ≠ b := by
  intro he
  rw [he, keyLt_irrefl] at h
  exact absurd h (by simp)

theorem lookupA_insertChild_self {κ : Type} (k : List Char) (v : TNode κ) :
    ∀ cs, lookupA (insertChild k v cs) k = some v := by
  intro cs
  induction cs with
  | nil => simp [insertChild, lookupA]
  | cons kv rest ih =>
    rcases kv with ⟨k2, v2⟩
    by_cases h1 : keyLt k k2 = true
    · simp [insertChild, h1, lookupA]
    · by_cases h2 : k = k2
      · subst h2
        simp [insertChild, h1, lookupA, keyLt_irrefl]
      · simp only [insertChild, if_neg h1, if_neg h2]
        simp [lookupA, h2, ih]

theorem lookupA_insertChild_ne {κ : Type} {k k2 : List Char} (hne : k2 ≠ k) (v : TNode κ) :
    ∀ cs, lookupA (insertChild k v cs) k2 = lookupA cs k2 := by
  intro cs
  induction cs with
  | nil => simp [insertChild, lookupA, hne]
  | cons kv rest ih =>
    rcases kv with ⟨k3, v3⟩
    by_cases h1 : keyLt k k3 = true
    · simp [insertChild, h1, lookupA, hne]
    · by_cases h2 : k = k3
      · subst h2
        simp [insertChild, h1, lookupA, hne]
      · simp only [insertChild, if_neg h1, if_neg h2]
        simp [lookupA, ih]

theorem insertChild_collapse {κ : Type} (k : List Char) (v1 v2 : TNode κ) :
    ∀ cs, insertChild k v1 (insertChild k v2 cs) = insertChild k v1 cs := by
  intro cs
  induction cs with
  | nil => simp [insertChild, keyLt_irrefl]
  | cons kv rest ih =>
    rcases kv with ⟨k2, v2'⟩
    by_cases h1 : keyLt k k2 = true
    · simp [insertChild, h1, keyLt_irrefl]
    · by_cases h2 : k = k2
      · simp [insertChild, h1, h2, keyLt_irrefl]
      · simp only [insertChild, if_neg h1, if_neg h2]
        simp [insertChild, if_neg h1, if_neg h2, ih]

theorem insertChild_comm_lt {κ : Type} {k1 k2 : List Char} (h12 : keyLt k1 k2 = true)
    (v1 v2 : TNode κ) :
    ∀ cs, insertChild k1 v1 (insertChild k2 v2 cs) = insertChild k2 v2 (insertChild k1 v1 cs) := by
  have h21 : keyLt k2 k1 = false := keyLt_asymm _ _ h12
  have hne : k1 ≠ k2 := keyLt_ne h12
  intro cs
  induction cs with
  | nil => simp [insertChild, h12, h21, Ne.symm hne]
  | cons kv rest ih =>
    rcases kv with ⟨k3, v3⟩
    by_cases hA : keyLt k2 k3 = true
    · have h13 : keyLt k1 k3 = true := keyLt_trans _ _ _ h12 hA
      simp [insertChild, hA, h13, h12, h21, Ne.symm hne]
    · by_cases hB : k2 = k3
      · subst hB
        simp [insertChild, hA, h12, h21, Ne.symm hne, keyLt_irrefl]
      · have h32 : keyLt k3 k2 = true := keyLt_total_not (by simpa using hA) hB
        by_cases hC : keyLt k1 k3 = true
        · simp [insertChild, hA, hB, hC, h21, Ne.symm hne]
        · by_cases hD : k1 = k3
          · subst hD
            simp [insertChild, hA, hB, keyLt_irrefl, h21, Ne.symm hne]
          · simp only [insertChild, if_neg hA, if_neg hB,
              if_neg hC, if_neg hD]
            simp [insertChild, if_neg hA, if_neg hB,
              if_neg hC, if_neg hD, ih]

theorem insertChild_comm {κ : Type} {k1 k2 : List Char} (hne : k1 ≠ k2) (v1 v2 : TNode κ)
    (cs : List (List Char × TNode κ)) :
    insertChild k1 v1 (insertChild k2 v2 cs) = insertChild k2 v2 (insertChild k1 v1 cs) := by
  rcases keyLt_conn k1 k2 hne with h | h
  · exact insertChild_comm_lt h v1 v2 cs
  · exact (insertChild_comm_lt h v2 v1 cs).symm

end TreeBuilder

namespace TreeBuilder

theorem insertLoc_nil {κ : Type} (e : IEntry κ) (t : TNode κ) : insertLoc [] e t = none := by
  cases t <;> rfl

theorem insertLoc_file {κ : Type} (p : List Char) (ps : List (List Char)) (e : IEntry κ)
    (en : IEntry κ) : insertLoc (p :: ps) e (.file en) = none := by
  cases ps <;> rfl

/-- One level of `insertLoc` on a directory node, uniformly over the tail
of the location. -/
theorem insertLoc_head {κ : Type} (p : List Char) (ps : List (List Char)) (e : IEntry κ)
    (cs : List (List Char × TNode κ)) :
    insertLoc (p :: ps) e (.dir cs) =
      (subIns ps e ((lookupA cs p).getD (.dir []))).map
        (fun c2 => .dir (insertChild p c2 cs)) := by
  cases ps <;> rfl

theorem subIns_eq_insertLoc {κ : Type} (q : List Char) (qs : List (List Char)) (e : IEntry κ)
    (child : TNode κ) : subIns (q :: qs) e child = insertLoc (q :: qs) e child := rfl

theorem opt_bind_map {α β γ : Type} (x : Option α) (f : α → β) (g : β → Option γ) :
    (x.map f).bind g = x.bind (fun a => g (f a)) := by cases x <;> rfl

theorem opt_map_bind {α β γ : Type} (x : Option α) (f : α → Option β) (g : β → γ) :
    (x.bind f).map g = x.bind (fun a => (f a).map g) := by cases x <;> rfl

/-- Insertions at locations neither of which is a prefix of the other
commute (up to the `none` that models the Go panic, which both orders
agree on). -/
theorem insertLoc_comm {κ : Type} (e1 e2 : IEntry κ) :
    ∀ (l1 l2 : List (List Char)), ¬ l1 <+: l2 → ¬ l2 <+: l1 →
      ∀ t : TNode κ, (insertLoc l1 e1 t).bind (insertLoc l2 e2) =
        (insertLoc l2 e2 t).bind (insertLoc l1 e1) := by
  intro l1
  induction l1 with
  | nil => intro l2 hp1 _ _; exact absurd (List.nil_prefix ..) hp1
  | cons p1 ps1 ih =>
    intro l2 hp1 hp2 t
    cases l2 with
    | nil => exact absurd (List.nil_prefix ..) hp2
    | cons p2 ps2 =>
      cases t with
      | file en =>
        rw [insertLoc_file, insertLoc_file]
        rfl
      | dir cs =>
        by_cases hpp : p1 = p2
        · subst hpp
          have hps1 : ¬ ps1 <+: ps2 := fun h => hp1 (List.cons_prefix_cons.mpr ⟨rfl, h⟩)
          have hps2 : ¬ ps2 <+: ps1 := fun h => hp2 (List.cons_prefix_cons.mpr ⟨rfl, h⟩)
          cases ps1 with
          | nil => exact absurd (List.nil_prefix ..) hps1
          | cons q1 qs1 =>
            cases ps2 with
            | nil => exact absurd (List.nil_prefix ..) hps2
            | cons q2 qs2 =>
              rw [insertLoc_head, insertLoc_head p1 (q2 :: qs2)]
              rw [opt_bind_map, opt_bind_map]
              have hinner : ∀ (e e' : IEntry κ) (q : List Char) (qs : List (List Char))
                  (c1 : TNode κ),
                  insertLoc (p1 :: q :: qs) e (.dir (insertChild p1 c1 cs)) =
                    (insertLoc (q :: qs) e c1).map
                      (fun c2 => TNode.dir (insertChild p1 c2 cs)) := by
                intro e e' q qs c1
                rw [insertLoc_head, lookupA_insertChild_self]
                show (subIns (q :: qs) e c1).map _ = _
                rw [subIns_eq_insertLoc]
                cases insertLoc (q :: qs) e c1 with
                | none => rfl
                | some c2 => simp [insertChild_collapse]
              calc (subIns (q1 :: qs1) e1 ((lookupA cs p1).getD (.dir []))).bind
                    (fun a => insertLoc (p1 :: q2 :: qs2) e2 (.dir (insertChild p1 a cs)))
                  = (insertLoc (q1 :: qs1) e1 ((lookupA cs p1).getD (.dir []))).bind
                    (fun a => (insertLoc (q2 :: qs2) e2 a).map
                      (fun c2 => TNode.dir (insertChild p1 c2 cs))) := by
                    rw [subIns_eq_insertLoc]
                    congr 1
                    funext a
                    exact hinner e2 e1 q2 qs2 a
                _ = ((insertLoc (q1 :: qs1) e1 ((lookupA cs p1).getD (.dir []))).bind
                    (insertLoc (q2 :: qs2) e2)).map
                      (fun c2 => TNode.dir (insertChild p1 c2 cs)) := by
                    rw [opt_map_bind]
                _ = ((insertLoc (q2 :: qs2) e2 ((lookupA cs p1).getD (.dir []))).bind
                    (insertLoc (q1 :: qs1) e1)).map
                      (fun c2 => TNode.dir (insertChild p1 c2 cs)) := by
                    rw [ih (q2 :: qs2) hps1 hps2]
                _ = (insertLoc (q2 :: qs2) e2 ((lookupA cs p1).getD (.dir []))).bind
                    (fun a => (insertLoc (q1 :: qs1) e1 a).map
                      (fun c2 => TNode.dir (insertChild p1 c2 cs))) := by
                    rw [opt_map_bind]
                _ = (subIns (q2 :: qs2) e2 ((lookupA cs p1).getD (.dir []))).bind
                    (fun a => insertLoc (p1 :: q1 :: qs1) e1 (.dir (insertChild p1 a cs))) := by
                    rw [subIns_eq_insertLoc]
                    congr 1
                    funext a
                    exact (hinner e1 e2 q1 qs1 a).symm
        · rw [insertLoc_head, insertLoc_head p2 ps2]
          rw [opt_bind_map, opt_bind_map]
          have hl1 : ∀ c1 : TNode κ,
              insertLoc (p2 :: ps2) e2 (.dir (insertChild p1 c1 cs)) =
                (subIns ps2 e2 ((lookupA cs p2).getD (.dir []))).map
                  (fun c2 => TNode.dir (insertChild p2 c2 (insertChild p1 c1 cs))) := by
            intro c1
            rw [insertLoc_head, lookupA_insertChild_ne (Ne.symm hpp)]
          have hl2 : ∀ c2 : TNode κ,
              insertLoc (p1 :: ps1) e1 (.dir (insertChild p2 c2 cs)) =
                (subIns ps1 e1 ((lookupA cs p1).getD (.dir []))).map
                  (fun c1 => TNode.dir (insertChild p1 c1 (insertChild p2 c2 cs))) := by
            intro c2
            rw [insertLoc_head, lookupA_insertChild_ne hpp]
          rcases hr1 : subIns ps1 e1 ((lookupA cs p1).getD (.dir [])) with - | c1 <;>
            rcases hr2 : subIns ps2 e2 ((lookupA cs p2).getD (.dir [])) with - | c2
          · simp
          · simp only [Option.none_bind, Option.some_bind]
            rw [hl2 c2, hr1]
            rfl
          · simp only [Option.none_bind, Option.some_bind]
            rw [hl1 c1, hr2]
            rfl
          · simp only [Option.some_bind]
            rw [hl1 c1, hr2, hl2 c2, hr1]
            simp [insertChild_comm hpp]

end TreeBuilder

namespace TreeBuilder

/-- Inflating the trie is independent of the snapshot iteration order,
provided no two paths denote nested-or-equal trie locations. -/
theorem inflate_perm {κ : Type} (l1 l2 : List (List Char × IEntry κ))
    (hperm : l1.Perm l2)
    (hfree : l1.Pairwise (fun a b => ¬ loc a.1 <+: loc b.1 ∧ ¬ loc b.1 <+: loc a.1)) :
    inflate l1 = inflate l2 := by
  unfold inflate
  refine hperm.foldl_eq' ?_ _
  intro x hx y hy z
  by_cases hxy : x = y
  · subst hxy; rfl
  · have hsym : Symmetric (fun (a b : List Char × IEntry κ) =>
        ¬ loc a.1 <+: loc b.1 ∧ ¬ loc b.1 <+: loc a.1) := by
      intro a b hab
      exact ⟨hab.2, hab.1⟩
    obtain ⟨hab, hba⟩ := List.Pairwise.forall hsym hfree hx hy hxy
    cases z with
    | none => rfl
    | some t =>
      simp only [Option.some_bind]
      show (addFile x.1 x.2 t).bind (addFile y.1 y.2) =
        (addFile y.1 y.2 t).bind (addFile x.1 x.2)
      unfold addFile
      exact insertLoc_comm x.2 y.2 _ _ hab hba t

end TreeBuilder

/-- C8 (amended): for any two snapshot iteration orders of the same
path-to-(hash, size) mapping — two lists that are permutations of each
other — `Build` produces identical in-memory tries, identical persisted
Tree objects at every level, and the same root hash, provided no two of
the mapping's paths denote the same or nested trie locations (no pair of
`loc` values is a prefix of the other). Without that proviso two distinct
path strings such as `a//b` and `a/b` collapse to the same trie slot and
the iteration order decides which entry survives (see the
counterexample). -/
theorem C8_tree_determinism {κ : Type} (HT : List (TreeBuilder.TreeEntryM κ) → κ)
    (l1 l2 : List (List Char × TreeBuilder.IEntry κ)) (fuel : Nat)
    (hperm : l1.Perm l2)
    (hfree : l1.Pairwise (fun a b => ¬ TreeBuilder.loc a.1 <+: TreeBuilder.loc b.1 ∧
      ¬ TreeBuilder.loc b.1 <+: TreeBuilder.loc a.1)) :
    TreeBuilder.inflate l1 = TreeBuilder.inflate l2 ∧
    TreeBuilder.Build HT l1 fuel = TreeBuilder.Build HT l2 fuel := by
  have h := TreeBuilder.inflate_perm l1 l2 hperm hfree
  refine ⟨h, ?_⟩
  unfold TreeBuilder.Build
  rw [h]

/-- Witness for C8 (amended): the two-file mapping `{x ↦ (1,1), y ↦ (2,2)}`
iterated in both orders builds the same trees and root hash. -/
theorem C8_tree_determinism_witness :
    TreeBuilder.Build (fun es => es.length) [(['x'], (⟨1, 1⟩ : TreeBuilder.IEntry Nat)),
        (['y'], ⟨2, 2⟩)] 2 =
      TreeBuilder.Build (fun es => es.length) [(['y'], (⟨2, 2⟩ : TreeBuilder.IEntry Nat)),
        (['x'], ⟨1, 1⟩)] 2 :=
  (C8_tree_determinism (fun es => es.length)
    [(['x'], ⟨1, 1⟩), (['y'], ⟨2, 2⟩)] [(['y'], ⟨2, 2⟩), (['x'], ⟨1, 1⟩)] 2
    (List.Perm.swap ..) (by decide)).2

/-- C8 counterexample against the claim as stated: the mapping
`{a//b ↦ (1,1), a/b ↦ (2,2)}` — two distinct paths with identical
contents across both runs — yields different Tree objects and root hashes
for its two iteration orders, because both paths denote the trie location
`a/b` (double slashes are skipped) and the later insertion wins. -/
theorem C8_counterexample :
    (([(['a', '/', '/', 'b'], (⟨1, 1⟩ : TreeBuilder.IEntry Nat)), (['a', '/', 'b'], ⟨2, 2⟩)]).Perm
      [(['a', '/', 'b'], (⟨2, 2⟩ : TreeBuilder.IEntry Nat)), (['a', '/', '/', 'b'], ⟨1, 1⟩)]) ∧
    TreeBuilder.Build (fun es => es.foldl (fun a e => a * 100 + e.hash * 10 + e.size.natAbs) 1)
        [(['a', '/', '/', 'b'], ⟨1, 1⟩), (['a', '/', 'b'], ⟨2, 2⟩)] 3 ≠
      TreeBuilder.Build (fun es => es.foldl (fun a e => a * 100 + e.hash * 10 + e.size.natAbs) 1)
        [(['a', '/', 'b'], ⟨2, 2⟩), (['a', '/', '/', 'b'], ⟨1, 1⟩)] 3 := by
  constructor
  · exact List.Perm.swap ..
  · decide
